import Mathlib

/-!
Verification of the billing-ledger core of the `mi-portal` repository
(`src/billing/models.py`, `src/billing/services.py`, `src/billing/admin.py`,
`src/core/models.py`), as a shallow embedding.

Modelling conventions:
* Monetary values (fixed-point, 2 decimals in the source) are integers (cents).
* Dates and datetimes are naturals ordered chronologically.  Billing periods
  (always the first day of a month in the source) are encoded as linear month
  indexes `year * 12 + (month - 1)`, so `_iter_month_starts` becomes an
  inclusive range of naturals and date comparison becomes `≤` on `Nat`.
* Database tables are lists of records; row lookup by primary key is `find?`.
* `NULL` columns are `Option`; `order_by("reviewed_at", "submitted_at")` is a
  stable sort on the lexicographic key (the source's databases give ties beyond
  that key in arbitrary order; the stable choice is one such order).
-/

namespace MiPortal

/-- Charge status values of `billing.models.ChargeStatus`
(`PARTIAL` is named `partiallyPaid` here). -/
inductive ChargeStatus where
  | pending
  | partiallyPaid
  | paid
  | void
deriving DecidableEq, Repr

/-- Payment status values of `billing.models.PaymentStatus`. -/
inductive PaymentStatus where
  | submitted
  | approved
  | rejected
deriving DecidableEq, Repr

/-- `core.models.Unit` (the fields the billing core reads). -/
structure Unit where
  id : Nat
  residential : Nat
  is_active : Bool
deriving DecidableEq, Repr

/-- `billing.models.FeeSchedule`. -/
structure FeeSchedule where
  residential : Nat
  amount : Int
  effective_from : Nat
deriving DecidableEq, Repr

/-- `billing.models.MonthlyCharge`. -/
structure MonthlyCharge where
  id : Nat
  residential : Nat
  unit : Nat
  period : Nat
  amount : Int
  status : ChargeStatus
deriving DecidableEq, Repr

/-- `billing.models.PaymentSubmission` (ledger-relevant fields). -/
structure PaymentSubmission where
  id : Nat
  residential : Nat
  unit : Nat
  amount : Int
  status : PaymentStatus
  reviewed_by : Option Nat
  reviewed_at : Option Nat
  review_notes : String
  submitted_at : Nat
deriving DecidableEq, Repr

/-- `billing.models.PaymentAllocation`. -/
structure PaymentAllocation where
  payment : Nat
  charge : Nat
  amount_applied : Int
deriving DecidableEq, Repr

/-- The relational store the billing core operates on.  `nextChargeId` and
`nextPaymentId` model the database's primary-key generator. -/
structure State where
  units : List Unit
  fee_schedules : List FeeSchedule
  charges : List MonthlyCharge
  payments : List PaymentSubmission
  allocations : List PaymentAllocation
  nextChargeId : Nat
  nextPaymentId : Nat
deriving DecidableEq, Repr

def sumApplied (l : List PaymentAllocation) : Int :=
  (l.map (·.amount_applied)).sum

def findPayment (s : State) (pid : Nat) : Option PaymentSubmission :=
  s.payments.find? (fun p => p.id == pid)

def findCharge (s : State) (cid : Nat) : Option MonthlyCharge :=
  s.charges.find? (fun c => c.id == cid)

/-- `PaymentSubmission.allocated_amount`: sum of `amount_applied` over every
allocation of the payment (no status filter), and also the `allocated`
annotation of `apply_available_credit_to_charge`'s payment query. -/
def paymentAllocated (s : State) (pid : Nat) : Int :=
  sumApplied (s.allocations.filter (fun a => a.payment == pid))

/-- Whether the payment row with primary key `pid` has status APPROVED. -/
def paymentIsApproved (s : State) (pid : Nat) : Bool :=
  match findPayment s pid with
  | some p => p.status == PaymentStatus.approved
  | none => false

/-- `MonthlyCharge.allocated_amount`: sum of `amount_applied` over the charge's
allocations whose payment has status APPROVED. -/
def chargeAllocated (s : State) (cid : Nat) : Int :=
  sumApplied (s.allocations.filter
    (fun a => a.charge == cid && paymentIsApproved s a.payment))

/-- `MonthlyCharge.balance`: `max(amount - allocated_amount, 0)`. -/
def chargeBalance (s : State) (c : MonthlyCharge) : Int :=
  max (c.amount - chargeAllocated s c.id) 0

/-- `billing.models.recompute_charge_status`.  The source computes
`charge.allocated_amount`, returns without saving when the status is VOID, and
otherwise saves only the `status` field (PENDING / PARTIAL / PAID thresholds). -/
def recompute_charge_status (s : State) (cid : Nat) : State :=
  match findCharge s cid with
  | none => s
  | some c =>
    if c.status = ChargeStatus.void then s
    else
      let allocated := chargeAllocated s cid
      let st := if allocated ≤ 0 then ChargeStatus.pending
                else if allocated < c.amount then ChargeStatus.partiallyPaid
                else ChargeStatus.paid
      { s with charges := s.charges.map (fun x =>
          if x.id == cid then { x with status := st } else x) }

/-- `billing.models.approve_payment(payment, reviewer_user)`.  No-op unless the
payment is SUBMITTED; otherwise sets status APPROVED, `reviewed_by` and
`reviewed_at`, then recomputes the status of the charge of each of the
payment's existing allocations.  (The source takes no auto-allocate argument
and never invokes `apply_available_credit_to_charge`.) -/
def approve_payment (s : State) (pid reviewer now : Nat) : State :=
  match findPayment s pid with
  | none => s
  | some p =>
    if p.status ≠ PaymentStatus.submitted then s
    else
      let s1 := { s with payments := s.payments.map (fun x =>
        if x.id == pid then
          { x with status := PaymentStatus.approved,
                   reviewed_by := some reviewer, reviewed_at := some now }
        else x) }
      (s.allocations.filter (fun a => a.payment == pid)).foldl
        (fun t a => recompute_charge_status t a.charge) s1

/-- `billing.models.reject_payment(payment, reviewer_user, notes)`.  No-op
unless the payment is SUBMITTED; otherwise sets status REJECTED, `reviewed_by`,
`reviewed_at`, and `review_notes := notes or review_notes`. -/
def reject_payment (s : State) (pid reviewer now : Nat) (notes : String) : State :=
  match findPayment s pid with
  | none => s
  | some p =>
    if p.status ≠ PaymentStatus.submitted then s
    else
      { s with payments := s.payments.map (fun x =>
        if x.id == pid then
          { x with status := PaymentStatus.rejected,
                   reviewed_by := some reviewer, reviewed_at := some now,
                   review_notes := if notes ≠ "" then notes else x.review_notes }
        else x) }

/-- The key order of `.order_by("reviewed_at", "submitted_at")`: review
timestamp ascending, submission timestamp breaking ties (a NULL review
timestamp sorts first). -/
def payLE (p q : PaymentSubmission) : Bool :=
  match p.reviewed_at, q.reviewed_at with
  | none, none => p.submitted_at ≤ q.submitted_at
  | none, some _ => true
  | some _, none => false
  | some a, some b => a < b || (a == b && p.submitted_at ≤ q.submitted_at)

def orderedInsertPay (a : PaymentSubmission) :
    List PaymentSubmission → List PaymentSubmission
  | [] => [a]
  | b :: l => if payLE a b then a :: b :: l else b :: orderedInsertPay a l

/-- Stable sort by `payLE`, modelling the ORDER BY of the payment query. -/
def sortByReview : List PaymentSubmission → List PaymentSubmission
  | [] => []
  | a :: l => orderedInsertPay a (sortByReview l)

/-- The payment query of `apply_available_credit_to_charge`: APPROVED payments
of the charge's unit and residential whose remaining amount
(`amount - allocated`) is positive, ordered by `(reviewed_at, submitted_at)`. -/
def eligiblePayments (s : State) (c : MonthlyCharge) : List PaymentSubmission :=
  sortByReview (s.payments.filter (fun p =>
    p.unit == c.unit && p.residential == c.residential &&
    p.status == PaymentStatus.approved &&
    decide (0 < p.amount - paymentAllocated s p.id)))

/-- The allocation loop of `apply_available_credit_to_charge`: walks the
`(payment id, remaining)` pairs, breaking once the running balance is ≤ 0,
and creates one allocation of `min(remaining, balance)` per payment, returning
the created allocations together with `applied_total`. -/
def allocLoop (cid : Nat) : Int → List (Nat × Int) → List PaymentAllocation × Int
  | _, [] => ([], 0)
  | balance, (pid, remaining) :: rest =>
    if balance ≤ 0 then ([], 0)
    else
      let to_apply := if remaining ≤ balance then remaining else balance
      let r := allocLoop cid (balance - to_apply) rest
      (⟨pid, cid, to_apply⟩ :: r.1, to_apply + r.2)

/-- `billing.services.apply_available_credit_to_charge`.  Returns the updated
store and the applied total. -/
def apply_available_credit_to_charge (s : State) (cid : Nat) : State × Int :=
  match findCharge s cid with
  | none => (s, 0)
  | some c =>
    if c.status = ChargeStatus.paid ∨ c.status = ChargeStatus.void then (s, 0)
    else
      let balance := chargeBalance s c
      if balance ≤ 0 then (s, 0)
      else
        let plan := allocLoop cid balance
          ((eligiblePayments s c).map (fun p => (p.id, p.amount - paymentAllocated s p.id)))
        let s1 := { s with allocations := s.allocations ++ plan.1 }
        (recompute_charge_status s1 cid, plan.2)

/-- The `(payment id, remaining)` working list handed to the allocation loop. -/
def creditPairs (s : State) (c : MonthlyCharge) : List (Nat × Int) :=
  (eligiblePayments s c).map (fun p => (p.id, p.amount - paymentAllocated s p.id))

/-- Invariant of reachable ledger stores: payment primary keys are unique and
below the key generator, no payment is over-allocated (its allocation total
never exceeds its amount), and every allocation references an existing payment
and an existing charge of that payment's unit. -/
def PayInv (s : State) : Prop :=
  (s.payments.map (·.id)).Nodup ∧
  (∀ p ∈ s.payments, paymentAllocated s p.id ≤ p.amount ∧ p.id < s.nextPaymentId) ∧
  (∀ a ∈ s.allocations, ∃ p, findPayment s a.payment = some p ∧
    ∃ c, findCharge s a.charge = some c ∧ c.unit = p.unit)

/-- Payment-side reading of §4.3's `applied` aggregate: the allocation's
payment is APPROVED and belongs to the unit. -/
def allocApprovedToUnit (pays : List PaymentSubmission) (u : Nat)
    (a : PaymentAllocation) : Bool :=
  match pays.find? (fun p => p.id == a.payment) with
  | some p => p.unit == u && p.status == PaymentStatus.approved
  | none => false

/-- Accumulator of the `order_by("-effective_from").first()` selection: keep
the candidate with the later `effective_from`. -/
def pickLater (acc : Option FeeSchedule) (f : FeeSchedule) : Option FeeSchedule :=
  match acc with
  | none => some f
  | some g => if g.effective_from < f.effective_from then some f else some g

/-- `billing.admin._fee_for_month`: the most recent fee schedule of the
residential with `effective_from <= period`, or none. -/
def fee_for (s : State) (res : Nat) (period : Nat) : Option Int :=
  ((s.fee_schedules.filter
      (fun f => f.residential == res && f.effective_from ≤ period)).foldl
    pickLater none).map (·.amount)

/-- `billing.admin._iter_month_starts`: inclusive month range (months encoded
as linear month indexes). -/
def iterMonthStarts (startM endM : Nat) : List Nat :=
  (List.range (endM + 1 - startM)).map (fun i => startM + i)

/-- One `get_or_create` step of `MonthlyChargeAdmin.generate_view`'s inner
loop: if a charge keyed `(residential, unit, period)` exists it is left
untouched and counted as skipped; otherwise a PENDING charge is created with
the resolved fee and `apply_available_credit_to_charge` is invoked on it. -/
def createChargeAndApply (res period : Nat) (fee : Int) (uId : Nat)
    (acc : State × Nat × Nat) : State × Nat × Nat :=
  let s := acc.1
  match s.charges.find?
      (fun c => c.residential == res && c.unit == uId && c.period == period) with
  | some _ => (s, acc.2.1, acc.2.2 + 1)
  | none =>
    let cid := s.nextChargeId
    let s1 := { s with
      charges := s.charges ++ [⟨cid, res, uId, period, fee, ChargeStatus.pending⟩],
      nextChargeId := cid + 1 }
    ((apply_available_credit_to_charge s1 cid).1, acc.2.1 + 1, acc.2.2)

/-- One month of `MonthlyChargeAdmin.generate_view`'s loop: resolve the fee;
if none, record the month as missing-fee and continue; otherwise get-or-create
a charge for every listed unit. -/
def genMonth (units : List Unit) (res : Nat) (acc : State × Nat × Nat × List Nat)
    (period : Nat) : State × Nat × Nat × List Nat :=
  match fee_for acc.1 res period with
  | none => (acc.1, acc.2.1, acc.2.2.1, acc.2.2.2 ++ [period])
  | some fee =>
    let r := units.foldl (fun a u => createChargeAndApply res period fee u.id a)
      (acc.1, acc.2.1, acc.2.2.1)
    (r.1, r.2.1, r.2.2, acc.2.2.2)

/-- `MonthlyChargeAdmin.generate_view`'s generation loop over the inclusive
month range.  The unit queryset is `Unit.objects.filter(residential_id=res.pk)`
— it does not filter on `is_active`.  Returns
`(state, created, skipped, missing_fee_months)`; if the residential has no
units the view returns early having generated nothing. -/
def generate_charges (s : State) (res : Nat) (startM endM : Nat) :
    State × Nat × Nat × List Nat :=
  let units := s.units.filter (fun u => u.residential == res)
  if units.isEmpty then (s, 0, 0, [])
  else (iterMonthStarts startM endM).foldl (genMonth units res) (s, 0, 0, [])

/-- Administrative VOID override: the one direct status write the spec admits
(performed through the admin CRUD; recomputation then treats it as sticky). -/
def void_charge (s : State) (cid : Nat) : State :=
  { s with charges := s.charges.map (fun x =>
      if x.id == cid then { x with status := ChargeStatus.void } else x) }

/-- Host-side payment submission (admin CRUD on `PaymentSubmission`): inserts a
SUBMITTED payment with a fresh primary key, no review data and no allocations.
A submission claims a non-negative monetary amount. -/
def submit_payment (s : State) (res uId : Nat) (amount : Int) (now : Nat) : State :=
  if amount < 0 then s
  else
    { s with
      payments := s.payments ++
        [⟨s.nextPaymentId, res, uId, amount, PaymentStatus.submitted, none, none, "", now⟩],
      nextPaymentId := s.nextPaymentId + 1 }

/-- The operations that mutate the ledger: host-side row creation (units, fee
schedules, payment submissions), the two review entry points, credit
application, status recomputation, charge generation, and the administrative
VOID override. -/
inductive Op where
  | addUnit (id res : Nat) (active : Bool)
  | addFee (res : Nat) (amount : Int) (eff : Nat)
  | submit (res uId : Nat) (amount : Int) (now : Nat)
  | approve (pid reviewer now : Nat)
  | reject (pid reviewer now : Nat) (notes : String)
  | applyCredit (cid : Nat)
  | recompute (cid : Nat)
  | generate (res startM endM : Nat)
  | voidCharge (cid : Nat)
deriving Repr

def applyOp (s : State) : Op → State
  | .addUnit i r a => { s with units := s.units ++ [⟨i, r, a⟩] }
  | .addFee r a e => { s with fee_schedules := s.fee_schedules ++ [⟨r, a, e⟩] }
  | .submit r u a n => submit_payment s r u a n
  | .approve p r n => approve_payment s p r n
  | .reject p r n notes => reject_payment s p r n notes
  | .applyCredit c => (apply_available_credit_to_charge s c).1
  | .recompute c => recompute_charge_status s c
  | .generate r a b => (generate_charges s r a b).1
  | .voidCharge c => void_charge s c

def initState : State := ⟨[], [], [], [], [], 0, 0⟩

def runOps (ops : List Op) : State := ops.foldl applyOp initState

/-- `get_unit_balance`'s `paid` aggregate: total APPROVED payment amounts of a
unit. -/
def approvedPaid (s : State) (u : Nat) : Int :=
  ((s.payments.filter
      (fun p => p.unit == u && p.status == PaymentStatus.approved)).map (·.amount)).sum

/-- `get_unit_balance`'s `applied` aggregate: total `amount_applied` over
allocations whose charge belongs to the unit and whose payment is APPROVED. -/
def approvedAppliedToUnit (s : State) (u : Nat) : Int :=
  sumApplied (s.allocations.filter (fun a =>
    (match findCharge s a.charge with
     | some c => c.unit == u
     | none => false) && paymentIsApproved s a.payment))

/-- Whether a charge row keyed `(residential, unit, period)` exists — the
`get_or_create` lookup of the generation view. -/
def hasChargeRow (s : State) (res uId period : Nat) : Bool :=
  (s.charges.find?
    (fun c => c.residential == res && c.unit == uId && c.period == period)).isSome

/-- The charge table of one state is that of another with only statuses
rewritten: every key field (id, unit, period, residential, amount) is
preserved row by row. -/
def ChargesShape (l l' : List MonthlyCharge) : Prop :=
  ∃ f : MonthlyCharge → MonthlyCharge, l' = l.map f ∧
    ∀ x, (f x).id = x.id ∧ (f x).unit = x.unit ∧ (f x).period = x.period ∧
      (f x).residential = x.residential ∧ (f x).amount = x.amount

/-- Month index of a calendar month: `mi 2024 6` is June 2024. -/
def mi (y m : Nat) : Nat := y * 12 + (m - 1)

/-- Fee-resolution example of the spec: schedules effective 2024-01-01 ($100)
and 2024-06-01 ($120) for residential 0. -/
def exFeeState : State :=
  ⟨[], [⟨0, 100, mi 2024 1⟩, ⟨0, 120, mi 2024 6⟩], [], [], [], 0, 0⟩

/-- Approval example: unit 1 of residential 0 with an open $100 PENDING charge
and a $100 SUBMITTED payment, no allocations. -/
def exC1State : State :=
  ⟨[⟨1, 0, true⟩], [],
   [⟨0, 0, 1, 0, 100, ChargeStatus.pending⟩],
   [⟨0, 0, 1, 100, PaymentStatus.submitted, none, none, "", 0⟩],
   [], 1, 1⟩

/-- FIFO example of the spec: payments P1 (id 1, reviewed at 1, $50 remaining)
and P2 (id 2, reviewed at 2, $50 remaining) for unit 5, and a new $30 PENDING
charge (id 7). -/
def exC2State : State :=
  ⟨[⟨5, 9, true⟩], [],
   [⟨7, 9, 5, 0, 30, ChargeStatus.pending⟩],
   [⟨1, 9, 5, 50, PaymentStatus.approved, some 4, some 1, "", 1⟩,
    ⟨2, 9, 5, 50, PaymentStatus.approved, some 4, some 2, "", 2⟩],
   [], 8, 3⟩

/-- Recomputation example: a $100 charge with a $40 allocation from an
APPROVED payment. -/
def exRecomputeState : State :=
  ⟨[⟨1, 0, true⟩], [],
   [⟨0, 0, 1, 0, 100, ChargeStatus.pending⟩],
   [⟨0, 0, 1, 40, PaymentStatus.approved, some 9, some 1, "", 0⟩],
   [⟨0, 0, 40⟩], 1, 1⟩

/-- A fully PAID charge together with an APPROVED payment that still has
remaining credit. -/
def exPaidChargeState : State :=
  ⟨[⟨1, 0, true⟩], [],
   [⟨0, 0, 1, 0, 100, ChargeStatus.paid⟩],
   [⟨0, 0, 1, 150, PaymentStatus.approved, some 9, some 1, "", 0⟩],
   [⟨0, 0, 100⟩], 1, 1⟩

/-- A payment that was already REJECTED. -/
def exRejectedState : State :=
  ⟨[⟨1, 0, true⟩], [],
   [⟨0, 0, 1, 0, 100, ChargeStatus.pending⟩],
   [⟨0, 0, 1, 100, PaymentStatus.rejected, some 9, some 1, "no", 0⟩],
   [], 1, 1⟩

/-- Generation example: residential 0 with an inactive unit and a fee schedule
effective from month 1 (month 0 of a generation range has no fee). -/
def exGenState : State :=
  ⟨[⟨1, 0, false⟩], [⟨0, 100, 1⟩], [], [], [], 0, 0⟩

theorem foldl_pickLater_some (l : List FeeSchedule) (g : FeeSchedule) :
    ∃ h, l.foldl pickLater (some g) = some h ∧ (h = g ∨ h ∈ l) ∧
      g.effective_from ≤ h.effective_from ∧
      ∀ f ∈ l, f.effective_from ≤ h.effective_from := by
  induction l generalizing g with
  | nil => exact ⟨g, rfl, Or.inl rfl, le_refl _, by simp⟩
  | cons f t ih =>
    have hstep : (f :: t).foldl pickLater (some g)
        = t.foldl pickLater (pickLater (some g) f) := rfl
    by_cases hc : g.effective_from < f.effective_from
    · obtain ⟨h, h1, h2, h3, h4⟩ := ih f
      refine ⟨h, ?_, ?_, by omega, ?_⟩
      · rw [hstep]
        simpa [pickLater, hc] using h1
      · rcases h2 with rfl | h2
        · exact Or.inr (List.mem_cons_self _ _)
        · exact Or.inr (List.mem_cons_of_mem _ h2)
      · intro f' hf'
        rcases List.mem_cons.mp hf' with rfl | hf'
        · exact h3
        · exact h4 f' hf'
    · obtain ⟨h, h1, h2, h3, h4⟩ := ih g
      refine ⟨h, ?_, ?_, h3, ?_⟩
      · rw [hstep]
        simpa [pickLater, hc] using h1
      · rcases h2 with rfl | h2
        · exact Or.inl rfl
        · exact Or.inr (List.mem_cons_of_mem _ h2)
      · intro f' hf'
        rcases List.mem_cons.mp hf' with rfl | hf'
        · omega
        · exact h4 f' hf'

/-- Claim C7: `fee_for` returns the amount of the schedule with the latest
`effective_from` not after the queried period, and none when no schedule has
`effective_from ≤ period`; in particular, with schedules effective 2024-01
($100) and 2024-06 ($120), it returns 100 for 2024-05, 120 for 2024-06, and
none for 2023-12. -/
theorem C7_fee_resolution (s : State) (res period : Nat) :
    (fee_for s res period = none ↔
      ∀ f ∈ s.fee_schedules, f.residential = res → period < f.effective_from) ∧
    (∀ a, fee_for s res period = some a →
      ∃ f ∈ s.fee_schedules, f.residential = res ∧ f.effective_from ≤ period ∧
        f.amount = a ∧
        ∀ g ∈ s.fee_schedules, g.residential = res → g.effective_from ≤ period →
          g.effective_from ≤ f.effective_from) ∧
    fee_for exFeeState 0 (mi 2024 5) = some 100 ∧
    fee_for exFeeState 0 (mi 2024 6) = some 120 ∧
    fee_for exFeeState 0 (mi 2023 12) = none := by
  refine ⟨?_, ?_, by decide, by decide, by decide⟩
  · unfold fee_for
    rcases hq : s.fee_schedules.filter
        (fun f => f.residential == res && decide (f.effective_from ≤ period))
      with _ | ⟨g, t⟩
    · rw [hq]
      constructor
      · intro _ f hf hres
        by_contra hlt
        have hle : f.effective_from ≤ period := by omega
        have hmem : f ∈ s.fee_schedules.filter
            (fun f => f.residential == res && decide (f.effective_from ≤ period)) :=
          List.mem_filter.mpr ⟨hf, by simp [hres, hle]⟩
        rw [hq] at hmem
        simp at hmem
      · intro _
        rfl
    · rw [hq]
      constructor
      · intro hn
        exfalso
        have hstep : (g :: t).foldl pickLater none = t.foldl pickLater (some g) := rfl
        rw [hstep] at hn
        obtain ⟨h, h1, -⟩ := foldl_pickLater_some t g
        rw [h1] at hn
        simp at hn
      · intro hall
        exfalso
        have hgmem : g ∈ s.fee_schedules.filter
            (fun f => f.residential == res && decide (f.effective_from ≤ period)) := by
          rw [hq]
          exact List.mem_cons_self g t
        have hp := List.mem_filter.mp hgmem
        have h2 := hp.2
        simp only [Bool.and_eq_true, beq_iff_eq, decide_eq_true_eq] at h2
        have := hall g hp.1 h2.1
        omega
  · intro a ha
    unfold fee_for at ha
    rcases hq : s.fee_schedules.filter
        (fun f => f.residential == res && decide (f.effective_from ≤ period))
      with _ | ⟨g, t⟩
    · rw [hq] at ha
      simp at ha
    · rw [hq] at ha
      have hstep : (g :: t).foldl pickLater none = t.foldl pickLater (some g) := rfl
      rw [hstep] at ha
      obtain ⟨h, h1, h2, h3, h4⟩ := foldl_pickLater_some t g
      rw [h1] at ha
      simp only [Option.map_some', Option.some.injEq] at ha
      have hmem : h ∈ s.fee_schedules.filter
          (fun f => f.residential == res && decide (f.effective_from ≤ period)) := by
        rw [hq]
        rcases h2 with rfl | h2
        · exact List.mem_cons_self _ _
        · exact List.mem_cons_of_mem _ h2
      have hprops := List.mem_filter.mp hmem
      have hpr := hprops.2
      simp only [Bool.and_eq_true, beq_iff_eq, decide_eq_true_eq] at hpr
      refine ⟨h, hprops.1, hpr.1, hpr.2, ha, ?_⟩
      intro g' hg' hgres hgle
      have hgmem : g' ∈ s.fee_schedules.filter
          (fun f => f.residential == res && decide (f.effective_from ≤ period)) :=
        List.mem_filter.mpr ⟨hg', by simp [hgres, hgle]⟩
      rw [hq] at hgmem
      rcases List.mem_cons.mp hgmem with rfl | hgmem
      · exact h3
      · exact h4 g' hgmem

/-- Witness for C7 at concrete inputs: the general soundness clause
instantiated on the example schedules. -/
theorem C7_fee_resolution_witness :
    ∃ f ∈ exFeeState.fee_schedules, f.residential = 0 ∧
      f.effective_from ≤ mi 2024 5 ∧ f.amount = 100 ∧
      ∀ g ∈ exFeeState.fee_schedules, g.residential = 0 →
        g.effective_from ≤ mi 2024 5 → g.effective_from ≤ f.effective_from :=
  (C7_fee_resolution exFeeState 0 (mi 2024 5)).2.1 100 (by decide)

theorem orderedInsertPay_perm (a : PaymentSubmission) (l : List PaymentSubmission) :
    (orderedInsertPay a l).Perm (a :: l) := by
  induction l with
  | nil => exact List.Perm.refl _
  | cons b t ih =>
    unfold orderedInsertPay
    by_cases hc : payLE a b = true
    · rw [if_pos hc]
    · rw [if_neg hc]
      exact ((ih.cons b).trans (List.Perm.swap a b t))

theorem sortByReview_perm (l : List PaymentSubmission) : (sortByReview l).Perm l := by
  induction l with
  | nil => exact List.Perm.refl _
  | cons a t ih =>
    exact (orderedInsertPay_perm a (sortByReview t)).trans (ih.cons a)

theorem payLE_total (p q : PaymentSubmission) :
    payLE p q = true ∨ payLE q p = true := by
  obtain ⟨_, _, _, _, _, _, pra, _, psa⟩ := p
  obtain ⟨_, _, _, _, _, _, qra, _, qsa⟩ := q
  cases pra <;> cases qra <;> simp [payLE] <;> omega

theorem payLE_trans (p q r : PaymentSubmission) (h1 : payLE p q = true)
    (h2 : payLE q r = true) : payLE p r = true := by
  obtain ⟨_, _, _, _, _, _, pra, _, psa⟩ := p
  obtain ⟨_, _, _, _, _, _, qra, _, qsa⟩ := q
  obtain ⟨_, _, _, _, _, _, rra, _, rsa⟩ := r
  cases pra <;> cases qra <;> cases rra <;>
    simp [payLE] at h1 h2 ⊢ <;> omega

theorem orderedInsertPay_pairwise (a : PaymentSubmission)
    (l : List PaymentSubmission)
    (h : List.Pairwise (fun p q => payLE p q = true) l) :
    List.Pairwise (fun p q => payLE p q = true) (orderedInsertPay a l) := by
  induction l with
  | nil => simp [orderedInsertPay]
  | cons b t ih =>
    rw [List.pairwise_cons] at h
    unfold orderedInsertPay
    by_cases hc : payLE a b = true
    · rw [if_pos hc]
      refine List.pairwise_cons.mpr ⟨?_, List.pairwise_cons.mpr h⟩
      intro x hx
      rcases List.mem_cons.mp hx with rfl | hx
      · exact hc
      · exact payLE_trans a b x hc (h.1 x hx)
    · rw [if_neg hc]
      refine List.pairwise_cons.mpr ⟨?_, ih h.2⟩
      intro x hx
      have hx' := (orderedInsertPay_perm a t).mem_iff.mp hx
      rcases List.mem_cons.mp hx' with rfl | hx'
      · rcases payLE_total x b with ht | ht
        · exact absurd ht hc
        · exact ht
      · exact h.1 x hx'

theorem sortByReview_sorted (l : List PaymentSubmission) :
    List.Pairwise (fun p q => payLE p q = true) (sortByReview l) := by
  induction l with
  | nil => simp [sortByReview]
  | cons a t ih => exact orderedInsertPay_pairwise a (sortByReview t) ih

theorem allocLoop_map_payment (cid : Nat) (bal : Int) (pairs : List (Nat × Int)) :
    ∃ k, ((allocLoop cid bal pairs).1.map (·.payment)) =
      (pairs.map Prod.fst).take k := by
  induction pairs generalizing bal with
  | nil => exact ⟨0, rfl⟩
  | cons pr rest ih =>
    rcases pr with ⟨pid, rem⟩
    unfold allocLoop
    by_cases hb : bal ≤ 0
    · exact ⟨0, by rw [if_pos hb]; rfl⟩
    · rw [if_neg hb]
      obtain ⟨k, hk⟩ := ih (bal - if rem ≤ bal then rem else bal)
      exact ⟨k + 1, by simpa using hk⟩

/-- Claim C2: credit is consumed FIFO.  The payment query is a permutation of
the eligible APPROVED payments sorted by `(reviewed_at, submitted_at)`
ascending, the created allocations follow an initial segment of that order,
and on the spec's example (P1 reviewed first, P2 later, both $50 remaining,
new $30 charge) exactly one allocation is created, from P1, of $30, while P2
remains untouched. -/
theorem C2_fifo_consumption :
    (∀ l : List PaymentSubmission,
      (sortByReview l).Perm l ∧
      List.Pairwise (fun p q => payLE p q = true) (sortByReview l)) ∧
    (∀ (cid : Nat) (bal : Int) (pairs : List (Nat × Int)),
      ∃ k, ((allocLoop cid bal pairs).1.map (·.payment)) =
        (pairs.map Prod.fst).take k) ∧
    (apply_available_credit_to_charge exC2State 7).1.allocations =
      [⟨1, 7, 30⟩] ∧
    (apply_available_credit_to_charge exC2State 7).2 = 30 ∧
    paymentAllocated (apply_available_credit_to_charge exC2State 7).1 2 = 0 :=
  ⟨fun l => ⟨sortByReview_perm l, sortByReview_sorted l⟩,
   allocLoop_map_payment, by decide, by decide, by decide⟩

/-- Claim C1: the source's `approve_payment(payment, reviewer_user)` takes no
auto-allocate argument and never invokes the credit-application algorithm.
Approving the SUBMITTED $100 payment of a unit with an open $100 PENDING
charge marks the payment APPROVED but creates no allocation and leaves the
charge PENDING — there is no auto-allocate mode (the admin approval view even
calls `approve_payment(payment, request.user, auto_allocate=True)`, an
argument the function's signature rejects). -/
theorem C1_approve_payment_never_auto_allocates :
    (approve_payment exC1State 0 9 5).allocations = [] ∧
    findCharge (approve_payment exC1State 0 9 5) 0 =
      some ⟨0, 0, 1, 0, 100, ChargeStatus.pending⟩ ∧
    findPayment (approve_payment exC1State 0 9 5) 0 =
      some ⟨0, 0, 1, 100, PaymentStatus.approved, some 9, some 5, "", 0⟩ := by
  refine ⟨?_, ?_, ?_⟩ <;> decide

/-- Claim C6: `apply_available_credit_to_charge` on a PAID or VOID charge
returns zero and changes nothing (no allocations, status untouched). -/
theorem C6_paid_void_charge_noop (s : State) (cid : Nat) (c : MonthlyCharge)
    (h : findCharge s cid = some c)
    (h2 : c.status = ChargeStatus.paid ∨ c.status = ChargeStatus.void) :
    apply_available_credit_to_charge s cid = (s, 0) := by
  unfold apply_available_credit_to_charge
  rw [h]
  simp [h2]

/-- Witness for C6: re-applying credit to the fully PAID example charge is a
no-op even though approved credit remains available. -/
theorem C6_paid_void_charge_noop_witness :
    apply_available_credit_to_charge exPaidChargeState 0 = (exPaidChargeState, 0) :=
  C6_paid_void_charge_noop exPaidChargeState 0
    ⟨0, 0, 1, 0, 100, ChargeStatus.paid⟩ rfl (Or.inl rfl)

/-- Claim C4: `recompute_charge_status` is a no-op on a VOID charge; otherwise
it sets PENDING / PARTIAL / PAID from the allocated total of APPROVED-payment
allocations and rewrites only the status field of the charge, leaving every
other charge field and every other table unchanged. -/
theorem C4_recompute_charge_status_correct (s : State) (cid : Nat)
    (c : MonthlyCharge) (h : findCharge s cid = some c) :
    (c.status = ChargeStatus.void → recompute_charge_status s cid = s) ∧
    (c.status ≠ ChargeStatus.void →
      (recompute_charge_status s cid).payments = s.payments ∧
      (recompute_charge_status s cid).allocations = s.allocations ∧
      (recompute_charge_status s cid).units = s.units ∧
      (recompute_charge_status s cid).fee_schedules = s.fee_schedules ∧
      (recompute_charge_status s cid).nextChargeId = s.nextChargeId ∧
      (recompute_charge_status s cid).nextPaymentId = s.nextPaymentId ∧
      (recompute_charge_status s cid).charges = s.charges.map (fun x =>
        if x.id == cid then
          { x with status :=
              if chargeAllocated s cid ≤ 0 then ChargeStatus.pending
              else if chargeAllocated s cid < c.amount then ChargeStatus.partiallyPaid
              else ChargeStatus.paid }
        else x)) := by
  constructor
  · intro hv
    unfold recompute_charge_status
    rw [h]
    simp [hv]
  · intro hv
    unfold recompute_charge_status
    rw [h]
    simp [hv]

/-- Witness for C4: recomputing the example charge ($100, $40 allocated from
an APPROVED payment) rewrites only its status, to PARTIAL. -/
theorem C4_recompute_charge_status_correct_witness :
    (recompute_charge_status exRecomputeState 0).allocations =
      exRecomputeState.allocations ∧
    (recompute_charge_status exRecomputeState 0).charges =
      exRecomputeState.charges.map (fun x =>
        if x.id == 0 then
          { x with status :=
              if chargeAllocated exRecomputeState 0 ≤ 0 then ChargeStatus.pending
              else if chargeAllocated exRecomputeState 0 <
                  (100 : Int) then ChargeStatus.partiallyPaid
              else ChargeStatus.paid }
        else x) := by
  have h := (C4_recompute_charge_status_correct exRecomputeState 0
    ⟨0, 0, 1, 0, 100, ChargeStatus.pending⟩ rfl).2 (by decide)
  exact ⟨h.2.1, h.2.2.2.2.2.2⟩

/-- Claim C9: `approve_payment` and `reject_payment` are no-ops on any payment
that is not SUBMITTED (in particular re-rejecting a REJECTED payment), and on
a SUBMITTED payment `reject_payment` sets exactly status REJECTED, reviewer,
review timestamp and optional notes, touching no charge or allocation. -/
theorem C9_review_workflow (s : State) (pid r n : Nat) (notes : String)
    (p : PaymentSubmission) (h : findPayment s pid = some p) :
    (p.status ≠ PaymentStatus.submitted →
      approve_payment s pid r n = s ∧ reject_payment s pid r n notes = s) ∧
    (p.status = PaymentStatus.submitted →
      (reject_payment s pid r n notes).charges = s.charges ∧
      (reject_payment s pid r n notes).allocations = s.allocations ∧
      (reject_payment s pid r n notes).units = s.units ∧
      (reject_payment s pid r n notes).fee_schedules = s.fee_schedules ∧
      (reject_payment s pid r n notes).payments = s.payments.map (fun x =>
        if x.id == pid then
          { x with status := PaymentStatus.rejected,
                   reviewed_by := some r, reviewed_at := some n,
                   review_notes := if notes ≠ "" then notes else x.review_notes }
        else x)) := by
  constructor
  · intro hs
    constructor
    · unfold approve_payment
      rw [h]
      simp [hs]
    · unfold reject_payment
      rw [h]
      simp [hs]
  · intro hs
    unfold reject_payment
    rw [h]
    simp [hs]

/-- Witness for C9: re-rejecting (or approving) the already-REJECTED example
payment changes nothing. -/
theorem C9_review_workflow_witness :
    approve_payment exRejectedState 0 7 9 = exRejectedState ∧
    reject_payment exRejectedState 0 7 9 "again" = exRejectedState :=
  (C9_review_workflow exRejectedState 0 7 9 "again"
    ⟨0, 0, 1, 100, PaymentStatus.rejected, some 9, some 1, "no", 0⟩ rfl).1 (by decide)

theorem recompute_frame (s : State) (cid : Nat) :
    (recompute_charge_status s cid).payments = s.payments ∧
    (recompute_charge_status s cid).allocations = s.allocations ∧
    (recompute_charge_status s cid).units = s.units ∧
    (recompute_charge_status s cid).fee_schedules = s.fee_schedules ∧
    (recompute_charge_status s cid).nextChargeId = s.nextChargeId ∧
    (recompute_charge_status s cid).nextPaymentId = s.nextPaymentId := by
  unfold recompute_charge_status
  cases findCharge s cid with
  | none => exact ⟨rfl, rfl, rfl, rfl, rfl, rfl⟩
  | some c =>
    by_cases hv : c.status = ChargeStatus.void
    · simp [hv]
    · simp [hv]

theorem paymentIsApproved_congr {s s' : State} (h : s'.payments = s.payments)
    (pid : Nat) : paymentIsApproved s' pid = paymentIsApproved s pid := by
  unfold paymentIsApproved findPayment
  rw [h]

theorem chargeAllocated_congr {s s' : State} (h1 : s'.allocations = s.allocations)
    (h2 : s'.payments = s.payments) (cid : Nat) :
    chargeAllocated s' cid = chargeAllocated s cid := by
  unfold chargeAllocated
  rw [h1]
  congr 1
  apply List.filter_congr
  intro a _
  rw [paymentIsApproved_congr h2]

theorem paymentAllocated_congr {s s' : State} (h1 : s'.allocations = s.allocations)
    (pid : Nat) : paymentAllocated s' pid = paymentAllocated s pid := by
  unfold paymentAllocated
  rw [h1]

theorem find_of_mem_nodup {l : List PaymentSubmission}
    (hnd : (l.map (·.id)).Nodup) {p : PaymentSubmission} (hp : p ∈ l) :
    l.find? (fun q => q.id == p.id) = some p := by
  induction l with
  | nil => cases hp
  | cons a t ih =>
    rw [List.map_cons, List.nodup_cons] at hnd
    rcases List.mem_cons.mp hp with rfl | hp
    · exact List.find?_cons_of_pos _ (by simp)
    · have hne : a.id ≠ p.id := fun he => hnd.1 (he ▸ List.mem_map_of_mem (·.id) hp)
      rw [List.find?_cons_of_neg _ (by simpa using hne)]
      exact ih hnd.2 hp

theorem sumApplied_append (l1 l2 : List PaymentAllocation) :
    sumApplied (l1 ++ l2) = sumApplied l1 + sumApplied l2 := by
  unfold sumApplied
  rw [List.map_append, List.sum_append]

theorem sumApplied_cons (a : PaymentAllocation) (l : List PaymentAllocation) :
    sumApplied (a :: l) = a.amount_applied + sumApplied l := by
  unfold sumApplied
  rw [List.map_cons, List.sum_cons]

theorem allocLoop_sum_eq (cid : Nat) (bal : Int) (pairs : List (Nat × Int)) :
    sumApplied (allocLoop cid bal pairs).1 = (allocLoop cid bal pairs).2 := by
  induction pairs generalizing bal with
  | nil => rfl
  | cons pr rest ih =>
    rcases pr with ⟨pid, rem⟩
    unfold allocLoop
    by_cases hb : bal ≤ 0
    · rw [if_pos hb]
      rfl
    · rw [if_neg hb]
      dsimp only
      rw [sumApplied_cons, ih]

theorem allocLoop_total_le (cid : Nat) (bal : Int) (pairs : List (Nat × Int))
    (h : 0 ≤ bal) : (allocLoop cid bal pairs).2 ≤ bal := by
  induction pairs generalizing bal with
  | nil => exact h
  | cons pr rest ih =>
    rcases pr with ⟨pid, rem⟩
    unfold allocLoop
    by_cases hb : bal ≤ 0
    · rw [if_pos hb]
      exact h
    · rw [if_neg hb]
      simp only
      have := ih (bal - if rem ≤ bal then rem else bal)
        (by by_cases hr : rem ≤ bal <;> simp [hr] <;> omega)
      by_cases hr : rem ≤ bal <;> simp [hr] at this ⊢ <;> omega

theorem allocLoop_mem (cid : Nat) (bal : Int) (pairs : List (Nat × Int)) :
    ∀ a ∈ (allocLoop cid bal pairs).1, a.charge = cid ∧
      ∃ rem, (a.payment, rem) ∈ pairs ∧ a.amount_applied ≤ rem := by
  induction pairs generalizing bal with
  | nil => intro a ha; cases ha
  | cons pr rest ih =>
    rcases pr with ⟨pid, rem⟩
    unfold allocLoop
    by_cases hb : bal ≤ 0
    · rw [if_pos hb]
      intro a ha
      cases ha
    · rw [if_neg hb]
      intro a ha
      rcases List.mem_cons.mp ha with rfl | ha
      · refine ⟨rfl, rem, List.mem_cons_self _ _, ?_⟩
        by_cases hr : rem ≤ bal <;> simp [hr] <;> omega
      · obtain ⟨hc, rem', hmem, hle⟩ := ih _ a ha
        exact ⟨hc, rem', List.mem_cons_of_mem _ hmem, hle⟩

theorem allocLoop_pos (cid : Nat) (bal : Int) (pairs : List (Nat × Int))
    (hpos : ∀ pr ∈ pairs, 0 < pr.2) :
    ∀ a ∈ (allocLoop cid bal pairs).1, 0 < a.amount_applied := by
  induction pairs generalizing bal with
  | nil => intro a ha; cases ha
  | cons pr rest ih =>
    rcases pr with ⟨pid, rem⟩
    unfold allocLoop
    by_cases hb : bal ≤ 0
    · rw [if_pos hb]
      intro a ha
      cases ha
    · rw [if_neg hb]
      intro a ha
      rcases List.mem_cons.mp ha with rfl | ha
      · have hr : 0 < rem := hpos (pid, rem) (List.mem_cons_self _ _)
        by_cases hc : rem ≤ bal <;> simp [hc] <;> omega
      · exact ih _ (fun pr hpr => hpos pr (List.mem_cons_of_mem _ hpr)) a ha

theorem allocLoop_payment_sum_zero (cid : Nat) (bal : Int)
    (pairs : List (Nat × Int)) (pid : Nat) (h : pid ∉ pairs.map Prod.fst) :
    sumApplied ((allocLoop cid bal pairs).1.filter (fun a => a.payment == pid)) = 0 := by
  induction pairs generalizing bal with
  | nil => rfl
  | cons pr rest ih =>
    rcases pr with ⟨q, rem⟩
    rw [List.map_cons, List.mem_cons] at h
    push_neg at h
    unfold allocLoop
    by_cases hb : bal ≤ 0
    · rw [if_pos hb]
      rfl
    · rw [if_neg hb]
      simp only [List.filter_cons]
      have hne : (q == pid) = false := beq_eq_false_iff_ne.mpr (fun he => h.1 he.symm)
      simp only [hne, Bool.false_eq_true, if_false]
      exact ih _ h.2

theorem allocLoop_payment_sum_le (cid : Nat) (bal : Int)
    (pairs : List (Nat × Int)) (pid : Nat) (rem : Int)
    (hnd : (pairs.map Prod.fst).Nodup) (hmem : (pid, rem) ∈ pairs)
    (hpos : ∀ pr ∈ pairs, 0 < pr.2) :
    sumApplied ((allocLoop cid bal pairs).1.filter (fun a => a.payment == pid)) ≤ rem := by
  induction pairs generalizing bal with
  | nil => cases hmem
  | cons pr rest ih =>
    rcases pr with ⟨q, r⟩
    rw [List.map_cons, List.nodup_cons] at hnd
    have hrempos : 0 < rem := hpos (pid, rem) hmem
    unfold allocLoop
    by_cases hb : bal ≤ 0
    · rw [if_pos hb]
      exact le_of_lt hrempos
    · rw [if_neg hb]
      dsimp only
      by_cases hq : q = pid
      · subst hq
        have hrem : rem = r := by
          rcases List.mem_cons.mp hmem with he | he
          · exact (Prod.ext_iff.mp he).2
          · exact absurd (List.mem_map_of_mem Prod.fst he) hnd.1
        subst hrem
        rw [List.filter_cons]
        simp only [beq_self_eq_true, if_true]
        have hz := allocLoop_payment_sum_zero cid
          (bal - if rem ≤ bal then rem else bal) rest q
          (fun hmem' => hnd.1 hmem')
        rw [sumApplied_cons, hz]
        by_cases hr : rem ≤ bal <;> simp [hr] <;> omega
      · have hne : (q == pid) = false := beq_eq_false_iff_ne.mpr hq
        rw [List.filter_cons]
        simp only [hne, Bool.false_eq_true, if_false]
        have hmem' : (pid, rem) ∈ rest := by
          rcases List.mem_cons.mp hmem with he | he
          · exact absurd (congrArg Prod.fst he).symm hq
          · exact he
        exact ih _ hnd.2 hmem'
          (fun pr hpr => hpos pr (List.mem_cons_of_mem _ hpr))

theorem eligible_mem (s : State) (c : MonthlyCharge) :
    ∀ p ∈ eligiblePayments s c, p ∈ s.payments ∧ p.unit = c.unit ∧
      p.residential = c.residential ∧ p.status = PaymentStatus.approved ∧
      0 < p.amount - paymentAllocated s p.id := by
  intro p hp
  unfold eligiblePayments at hp
  have hp' := (sortByReview_perm _).mem_iff.mp hp
  have := List.mem_filter.mp hp'
  have hpred := this.2
  simp only [Bool.and_eq_true, beq_iff_eq, decide_eq_true_eq] at hpred
  exact ⟨this.1, hpred.1.1.1, hpred.1.1.2, hpred.1.2, hpred.2⟩

theorem applyCredit_eq_none {s : State} {cid : Nat}
    (h : findCharge s cid = none) :
    apply_available_credit_to_charge s cid = (s, 0) := by
  unfold apply_available_credit_to_charge
  rw [h]

theorem applyCredit_eq_zerobal {s : State} {cid : Nat} {c : MonthlyCharge}
    (h : findCharge s cid = some c)
    (hpv : ¬(c.status = ChargeStatus.paid ∨ c.status = ChargeStatus.void))
    (hbal : chargeBalance s c ≤ 0) :
    apply_available_credit_to_charge s cid = (s, 0) := by
  unfold apply_available_credit_to_charge
  rw [h]
  dsimp only
  rw [if_neg hpv, if_pos hbal]

theorem applyCredit_eq_main {s : State} {cid : Nat} {c : MonthlyCharge}
    (h : findCharge s cid = some c)
    (hpv : ¬(c.status = ChargeStatus.paid ∨ c.status = ChargeStatus.void))
    (hbal : ¬ chargeBalance s c ≤ 0) :
    apply_available_credit_to_charge s cid =
      (recompute_charge_status
        { s with allocations :=
            s.allocations ++ (allocLoop cid (chargeBalance s c) (creditPairs s c)).1 } cid,
       (allocLoop cid (chargeBalance s c) (creditPairs s c)).2) := by
  unfold apply_available_credit_to_charge creditPairs
  rw [h]
  dsimp only
  rw [if_neg hpv, if_neg hbal]

theorem creditPairs_pos (s : State) (c : MonthlyCharge) :
    ∀ pr ∈ creditPairs s c, 0 < pr.2 := by
  intro pr hpr
  obtain ⟨p, hp, rfl⟩ := List.mem_map.mp hpr
  exact (eligible_mem s c p hp).2.2.2.2

theorem creditPairs_fst_nodup (s : State) (c : MonthlyCharge)
    (hnd : (s.payments.map (·.id)).Nodup) :
    ((creditPairs s c).map Prod.fst).Nodup := by
  unfold creditPairs
  rw [List.map_map]
  have : ((eligiblePayments s c).map (·.id)).Nodup := by
    unfold eligiblePayments
    refine ((sortByReview_perm _).map (·.id)).symm.nodup_iff.mp ?_
    exact hnd.sublist
      (List.Sublist.map (fun p : PaymentSubmission => p.id) (List.filter_sublist _))
  simpa using this

theorem chargeAllocated_append (s : State) (extra : List PaymentAllocation)
    (cid : Nat) :
    chargeAllocated { s with allocations := s.allocations ++ extra } cid =
      chargeAllocated s cid +
        sumApplied (extra.filter
          (fun a => a.charge == cid && paymentIsApproved s a.payment)) := by
  unfold chargeAllocated
  rw [show ({ s with allocations := s.allocations ++ extra } : State).allocations
    = s.allocations ++ extra from rfl, List.filter_append, sumApplied_append]
  rfl

theorem creditPairs_approved (s : State) (c : MonthlyCharge)
    (hnd : (s.payments.map (·.id)).Nodup) :
    ∀ pr ∈ creditPairs s c, paymentIsApproved s pr.1 = true := by
  intro pr hpr
  obtain ⟨p, hp, rfl⟩ := List.mem_map.mp hpr
  obtain ⟨hmem, -, -, hst, -⟩ := eligible_mem s c p hp
  unfold paymentIsApproved findPayment
  rw [find_of_mem_nodup hnd hmem]
  simp [hst]

/-- Claim C10: every allocation created by `apply_available_credit_to_charge`
is strictly positive, the applied total never exceeds the charge's remaining
balance at entry, the charge's allocated total grows by exactly the applied
total, and (when the charge was not over-allocated at entry) the allocated
total never exceeds the charge amount after the call. -/
theorem C10_allocation_bounds (s : State) (cid : Nat) (c : MonthlyCharge)
    (h : findCharge s cid = some c)
    (hnd : (s.payments.map (·.id)).Nodup) :
    (∀ a ∈ (apply_available_credit_to_charge s cid).1.allocations,
      a ∈ s.allocations ∨ 0 < a.amount_applied) ∧
    (apply_available_credit_to_charge s cid).2 ≤ chargeBalance s c ∧
    chargeAllocated (apply_available_credit_to_charge s cid).1 cid =
      chargeAllocated s cid + (apply_available_credit_to_charge s cid).2 ∧
    (chargeAllocated s cid ≤ c.amount →
      chargeAllocated (apply_available_credit_to_charge s cid).1 cid ≤ c.amount) := by
  have hcid : c.id = cid := by simpa using List.find?_some h
  by_cases hpv : c.status = ChargeStatus.paid ∨ c.status = ChargeStatus.void
  · rw [C6_paid_void_charge_noop s cid c h hpv]
    refine ⟨fun a ha => Or.inl ha, le_max_right _ _, (add_zero _).symm, fun hle => hle⟩
  · by_cases hbal : chargeBalance s c ≤ 0
    · rw [applyCredit_eq_zerobal h hpv hbal]
      refine ⟨fun a ha => Or.inl ha, le_max_right _ _, (add_zero _).symm, fun hle => hle⟩
    · rw [applyCredit_eq_main h hpv hbal]
      have hpos := creditPairs_pos s c
      have hfst := creditPairs_fst_nodup s c hnd
      have happ := creditPairs_approved s c hnd
      have hframe := recompute_frame
        { s with allocations :=
            s.allocations ++ (allocLoop cid (chargeBalance s c) (creditPairs s c)).1 } cid
      have halloc_eq : chargeAllocated
          (recompute_charge_status
            { s with allocations :=
                s.allocations ++ (allocLoop cid (chargeBalance s c) (creditPairs s c)).1 } cid)
          cid =
          chargeAllocated s cid +
            (allocLoop cid (chargeBalance s c) (creditPairs s c)).2 := by
        rw [chargeAllocated_congr hframe.2.1 hframe.1 cid]
        rw [chargeAllocated_append]
        have hkeep : (allocLoop cid (chargeBalance s c) (creditPairs s c)).1.filter
            (fun a => a.charge == cid && paymentIsApproved s a.payment) =
            (allocLoop cid (chargeBalance s c) (creditPairs s c)).1 := by
          rw [List.filter_eq_self]
          intro a ha
          obtain ⟨hch, rem, hmem, -⟩ := allocLoop_mem cid (chargeBalance s c)
            (creditPairs s c) a ha
          have := happ (a.payment, rem) hmem
          simp [hch, this]
        rw [hkeep, allocLoop_sum_eq]
      refine ⟨?_, ?_, halloc_eq, ?_⟩
      · intro a ha
        rw [hframe.2.1] at ha
        rcases List.mem_append.mp ha with ha | ha
        · exact Or.inl ha
        · exact Or.inr (allocLoop_pos cid (chargeBalance s c) (creditPairs s c) hpos a ha)
      · exact allocLoop_total_le cid (chargeBalance s c) (creditPairs s c) (by omega)
      · intro hle
        have h2 := allocLoop_total_le cid (chargeBalance s c) (creditPairs s c) (by omega)
        have hx : (0:Int) ≤ c.amount - chargeAllocated s cid := by omega
        have hbe : chargeBalance s c = c.amount - chargeAllocated s cid := by
          show max (c.amount - chargeAllocated s c.id) 0 = _
          rw [hcid]
          exact max_eq_left hx
        rw [halloc_eq]
        omega

theorem chargesShape_refl (l : List MonthlyCharge) : ChargesShape l l :=
  ⟨id, by simp, by simp⟩

theorem chargesShape_trans {l1 l2 l3 : List MonthlyCharge}
    (h1 : ChargesShape l1 l2) (h2 : ChargesShape l2 l3) : ChargesShape l1 l3 := by
  obtain ⟨f, hf, hfp⟩ := h1
  obtain ⟨g, hg, hgp⟩ := h2
  refine ⟨g ∘ f, ?_, ?_⟩
  · rw [hg, hf, List.map_map]
  · intro x
    obtain ⟨h1, h2, h3, h4, h5⟩ := hgp (f x)
    obtain ⟨k1, k2, k3, k4, k5⟩ := hfp x
    exact ⟨h1.trans k1, h2.trans k2, h3.trans k3, h4.trans k4, h5.trans k5⟩

theorem recompute_chargesShape (s : State) (cid : Nat) :
    ChargesShape s.charges (recompute_charge_status s cid).charges := by
  unfold recompute_charge_status
  cases findCharge s cid with
  | none => exact chargesShape_refl _
  | some c =>
    dsimp only
    by_cases hv : c.status = ChargeStatus.void
    · rw [if_pos hv]
      exact chargesShape_refl _
    · rw [if_neg hv]
      refine ⟨fun x => if x.id == cid then { x with status :=
        (if chargeAllocated s cid ≤ 0 then ChargeStatus.pending
         else if chargeAllocated s cid < c.amount then ChargeStatus.partiallyPaid
         else ChargeStatus.paid) } else x, rfl, ?_⟩
      intro x
      by_cases hx : x.id == cid <;> simp [hx]

theorem applyCredit_frame (s : State) (cid : Nat) :
    (apply_available_credit_to_charge s cid).1.units = s.units ∧
    (apply_available_credit_to_charge s cid).1.fee_schedules = s.fee_schedules ∧
    (apply_available_credit_to_charge s cid).1.payments = s.payments ∧
    (apply_available_credit_to_charge s cid).1.nextChargeId = s.nextChargeId ∧
    (apply_available_credit_to_charge s cid).1.nextPaymentId = s.nextPaymentId ∧
    ChargesShape s.charges (apply_available_credit_to_charge s cid).1.charges := by
  cases hc : findCharge s cid with
  | none =>
    rw [applyCredit_eq_none hc]
    exact ⟨rfl, rfl, rfl, rfl, rfl, chargesShape_refl _⟩
  | some c =>
    by_cases hpv : c.status = ChargeStatus.paid ∨ c.status = ChargeStatus.void
    · rw [C6_paid_void_charge_noop s cid c hc hpv]
      exact ⟨rfl, rfl, rfl, rfl, rfl, chargesShape_refl _⟩
    · by_cases hbal : chargeBalance s c ≤ 0
      · rw [applyCredit_eq_zerobal hc hpv hbal]
        exact ⟨rfl, rfl, rfl, rfl, rfl, chargesShape_refl _⟩
      · rw [applyCredit_eq_main hc hpv hbal]
        have hframe := recompute_frame
          { s with allocations :=
              s.allocations ++ (allocLoop cid (chargeBalance s c) (creditPairs s c)).1 } cid
        have hshape := recompute_chargesShape
          { s with allocations :=
              s.allocations ++ (allocLoop cid (chargeBalance s c) (creditPairs s c)).1 } cid
        exact ⟨hframe.2.2.1, hframe.2.2.2.1, hframe.1, hframe.2.2.2.2.1,
          hframe.2.2.2.2.2, hshape⟩

theorem hasChargeRow_of_shape {s s' : State} (h : ChargesShape s.charges s'.charges)
    (res uId period : Nat) (hrow : hasChargeRow s res uId period = true) :
    hasChargeRow s' res uId period = true := by
  unfold hasChargeRow at hrow ⊢
  obtain ⟨f, hf, hfp⟩ := h
  rw [hf]
  rw [Option.isSome_iff_exists] at hrow
  obtain ⟨c, hc⟩ := hrow
  have hcm := List.mem_of_find?_eq_some hc
  have hcp := List.find?_some hc
  rw [List.find?_isSome]
  refine ⟨f c, List.mem_map_of_mem f hcm, ?_⟩
  obtain ⟨-, h2, h3, h4, -⟩ := hfp c
  simp only [Bool.and_eq_true, beq_iff_eq] at hcp ⊢
  exact ⟨⟨h4.trans hcp.1.1, h2.trans hcp.1.2⟩, h3.trans hcp.2⟩

theorem createChargeAndApply_spec (res period : Nat) (fee : Int) (uId : Nat)
    (acc : State × Nat × Nat) :
    (createChargeAndApply res period fee uId acc).1.units = acc.1.units ∧
    (createChargeAndApply res period fee uId acc).1.fee_schedules =
      acc.1.fee_schedules ∧
    (createChargeAndApply res period fee uId acc).1.payments = acc.1.payments ∧
    (createChargeAndApply res period fee uId acc).1.nextPaymentId =
      acc.1.nextPaymentId ∧
    (∀ res' u' per', hasChargeRow acc.1 res' u' per' = true →
      hasChargeRow (createChargeAndApply res period fee uId acc).1 res' u' per' = true) ∧
    hasChargeRow (createChargeAndApply res period fee uId acc).1 res uId period = true ∧
    (createChargeAndApply res period fee uId acc).2.1 +
      (createChargeAndApply res period fee uId acc).2.2 =
      acc.2.1 + acc.2.2 + 1 ∧
    (∀ c ∈ (createChargeAndApply res period fee uId acc).1.charges,
      (∃ c0 ∈ acc.1.charges, c0.unit = c.unit) ∨ c.unit = uId) := by
  unfold createChargeAndApply
  dsimp only
  cases hfind : acc.1.charges.find?
      (fun c => c.residential == res && c.unit == uId && c.period == period) with
  | some c0 =>
    refine ⟨rfl, rfl, rfl, rfl, fun _ _ _ h => h, ?_, by dsimp only; omega, ?_⟩
    · unfold hasChargeRow
      rw [hfind]
      rfl
    · intro c hc
      exact Or.inl ⟨c, hc, rfl⟩
  | none =>
    set s1 : State := { acc.1 with
      charges := acc.1.charges ++
        [⟨acc.1.nextChargeId, res, uId, period, fee, ChargeStatus.pending⟩],
      nextChargeId := acc.1.nextChargeId + 1 } with hs1
    have hap := applyCredit_frame s1 acc.1.nextChargeId
    have hs1charges : s1.charges = acc.1.charges ++
        [⟨acc.1.nextChargeId, res, uId, period, fee, ChargeStatus.pending⟩] := rfl
    refine ⟨hap.1, hap.2.1, hap.2.2.1, hap.2.2.2.2.1, ?_, ?_, by dsimp only; omega, ?_⟩
    · intro res' u' per' h
      refine hasChargeRow_of_shape hap.2.2.2.2.2 res' u' per' ?_
      unfold hasChargeRow at h ⊢
      rw [hs1charges, List.find?_append]
      rw [Option.isSome_iff_exists] at h
      obtain ⟨c, hc⟩ := h
      rw [hc]
      rfl
    · refine hasChargeRow_of_shape hap.2.2.2.2.2 res uId period ?_
      unfold hasChargeRow
      rw [hs1charges, List.find?_append, hfind]
      simp
    · intro c hc
      obtain ⟨f, hf, hfp⟩ := hap.2.2.2.2.2
      rw [hf] at hc
      obtain ⟨c1, hc1, rfl⟩ := List.mem_map.mp hc
      rw [hs1charges] at hc1
      rcases List.mem_append.mp hc1 with hc1 | hc1
      · exact Or.inl ⟨c1, hc1, ((hfp c1).2.1).symm⟩
      · simp only [List.mem_singleton] at hc1
        subst hc1
        exact Or.inr (hfp _).2.1

theorem unitsFold_spec (res period : Nat) (fee : Int) (units : List Unit)
    (acc : State × Nat × Nat) :
    (units.foldl (fun a u => createChargeAndApply res period fee u.id a) acc).1.units
      = acc.1.units ∧
    (units.foldl (fun a u => createChargeAndApply res period fee u.id a) acc).1.fee_schedules
      = acc.1.fee_schedules ∧
    (units.foldl (fun a u => createChargeAndApply res period fee u.id a) acc).1.payments
      = acc.1.payments ∧
    (units.foldl (fun a u => createChargeAndApply res period fee u.id a) acc).1.nextPaymentId
      = acc.1.nextPaymentId ∧
    (∀ res' u' per', hasChargeRow acc.1 res' u' per' = true →
      hasChargeRow (units.foldl
        (fun a u => createChargeAndApply res period fee u.id a) acc).1 res' u' per' = true) ∧
    (∀ u ∈ units, hasChargeRow (units.foldl
      (fun a u => createChargeAndApply res period fee u.id a) acc).1 res u.id period = true) ∧
    (units.foldl (fun a u => createChargeAndApply res period fee u.id a) acc).2.1 +
      (units.foldl (fun a u => createChargeAndApply res period fee u.id a) acc).2.2 =
      acc.2.1 + acc.2.2 + units.length ∧
    (∀ c ∈ (units.foldl
        (fun a u => createChargeAndApply res period fee u.id a) acc).1.charges,
      (∃ c0 ∈ acc.1.charges, c0.unit = c.unit) ∨ ∃ u ∈ units, c.unit = u.id) := by
  induction units generalizing acc with
  | nil =>
    exact ⟨rfl, rfl, rfl, rfl, fun _ _ _ h => h, fun u hu => absurd hu (List.not_mem_nil u),
      by simp, fun c hc => Or.inl ⟨c, hc, rfl⟩⟩
  | cons u t ih =>
    rw [List.foldl_cons]
    have hstep := createChargeAndApply_spec res period fee u.id acc
    have ihr := ih (createChargeAndApply res period fee u.id acc)
    refine ⟨ihr.1.trans hstep.1, ihr.2.1.trans hstep.2.1,
      ihr.2.2.1.trans hstep.2.2.1, ihr.2.2.2.1.trans hstep.2.2.2.1, ?_, ?_, ?_, ?_⟩
    · intro res' u' per' h
      exact ihr.2.2.2.2.1 res' u' per' (hstep.2.2.2.2.1 res' u' per' h)
    · intro v hv
      rcases List.mem_cons.mp hv with rfl | hv
      · exact ihr.2.2.2.2.1 res v.id period hstep.2.2.2.2.2.1
      · exact ihr.2.2.2.2.2.1 v hv
    · have h1 := ihr.2.2.2.2.2.2.1
      have h2 := hstep.2.2.2.2.2.2.1
      simp only [List.length_cons]
      omega
    · intro c hc
      rcases ihr.2.2.2.2.2.2.2 c hc with ⟨c0, hc0, he⟩ | ⟨v, hv, he⟩
      · rcases hstep.2.2.2.2.2.2.2 c0 hc0 with ⟨c1, hc1, he1⟩ | he1
        · exact Or.inl ⟨c1, hc1, he1.trans he⟩
        · exact Or.inr ⟨u, List.mem_cons_self _ _, he.symm.trans he1⟩
      · exact Or.inr ⟨v, List.mem_cons_of_mem _ hv, he⟩

theorem fee_for_congr {s s' : State} (h : s'.fee_schedules = s.fee_schedules)
    (res period : Nat) : fee_for s' res period = fee_for s res period := by
  unfold fee_for
  rw [h]

theorem genMonth_spec (units : List Unit) (res : Nat)
    (acc : State × Nat × Nat × List Nat) (period : Nat) :
    (genMonth units res acc period).1.units = acc.1.units ∧
    (genMonth units res acc period).1.fee_schedules = acc.1.fee_schedules ∧
    (genMonth units res acc period).1.payments = acc.1.payments ∧
    (genMonth units res acc period).1.nextPaymentId = acc.1.nextPaymentId ∧
    (∀ res' u' per', hasChargeRow acc.1 res' u' per' = true →
      hasChargeRow (genMonth units res acc period).1 res' u' per' = true) ∧
    ((fee_for acc.1 res period).isSome = true → ∀ u ∈ units,
      hasChargeRow (genMonth units res acc period).1 res u.id period = true) ∧
    (genMonth units res acc period).2.1 + (genMonth units res acc period).2.2.1 =
      acc.2.1 + acc.2.2.1 +
        (if (fee_for acc.1 res period).isSome then units.length else 0) ∧
    (genMonth units res acc period).2.2.2 =
      (if (fee_for acc.1 res period).isSome then acc.2.2.2
       else acc.2.2.2 ++ [period]) ∧
    (∀ c ∈ (genMonth units res acc period).1.charges,
      (∃ c0 ∈ acc.1.charges, c0.unit = c.unit) ∨ ∃ u ∈ units, c.unit = u.id) := by
  unfold genMonth
  cases hfee : fee_for acc.1 res period with
  | none =>
    exact ⟨rfl, rfl, rfl, rfl, fun _ _ _ h => h, fun h => absurd h (by simp),
      by simp, rfl, fun c hc => Or.inl ⟨c, hc, rfl⟩⟩
  | some fee =>
    have huf := unitsFold_spec res period fee units (acc.1, acc.2.1, acc.2.2.1)
    exact ⟨huf.1, huf.2.1, huf.2.2.1, huf.2.2.2.1, huf.2.2.2.2.1,
      fun _ => huf.2.2.2.2.2.1, huf.2.2.2.2.2.2.1, rfl, huf.2.2.2.2.2.2.2⟩

theorem genMonths_spec (units : List Unit) (res : Nat) (ms : List Nat)
    (acc : State × Nat × Nat × List Nat) :
    (ms.foldl (genMonth units res) acc).1.units = acc.1.units ∧
    (ms.foldl (genMonth units res) acc).1.fee_schedules = acc.1.fee_schedules ∧
    (ms.foldl (genMonth units res) acc).1.payments = acc.1.payments ∧
    (ms.foldl (genMonth units res) acc).1.nextPaymentId = acc.1.nextPaymentId ∧
    (∀ res' u' per', hasChargeRow acc.1 res' u' per' = true →
      hasChargeRow (ms.foldl (genMonth units res) acc).1 res' u' per' = true) ∧
    (∀ m ∈ ms, (fee_for acc.1 res m).isSome = true → ∀ u ∈ units,
      hasChargeRow (ms.foldl (genMonth units res) acc).1 res u.id m = true) ∧
    (ms.foldl (genMonth units res) acc).2.1 +
      (ms.foldl (genMonth units res) acc).2.2.1 =
      acc.2.1 + acc.2.2.1 +
        (ms.countP (fun m => (fee_for acc.1 res m).isSome)) * units.length ∧
    (ms.foldl (genMonth units res) acc).2.2.2 =
      acc.2.2.2 ++ ms.filter (fun m => (fee_for acc.1 res m).isNone) ∧
    (∀ c ∈ (ms.foldl (genMonth units res) acc).1.charges,
      (∃ c0 ∈ acc.1.charges, c0.unit = c.unit) ∨ ∃ u ∈ units, c.unit = u.id) := by
  induction ms generalizing acc with
  | nil =>
    exact ⟨rfl, rfl, rfl, rfl, fun _ _ _ h => h,
      fun m hm => absurd hm (List.not_mem_nil m), by simp, by simp,
      fun c hc => Or.inl ⟨c, hc, rfl⟩⟩
  | cons m rest ih =>
    rw [List.foldl_cons]
    have hstep := genMonth_spec units res acc m
    have ihr := ih (genMonth units res acc m)
    have hfee : ∀ per, fee_for (genMonth units res acc m).1 res per
        = fee_for acc.1 res per := fun per => fee_for_congr hstep.2.1 res per
    refine ⟨ihr.1.trans hstep.1, ihr.2.1.trans hstep.2.1,
      ihr.2.2.1.trans hstep.2.2.1, ihr.2.2.2.1.trans hstep.2.2.2.1, ?_, ?_, ?_, ?_, ?_⟩
    · intro res' u' per' h
      exact ihr.2.2.2.2.1 res' u' per' (hstep.2.2.2.2.1 res' u' per' h)
    · intro m' hm' hsome u hu
      rcases List.mem_cons.mp hm' with rfl | hm'
      · exact ihr.2.2.2.2.1 res u.id m' (hstep.2.2.2.2.2.1 hsome u hu)
      · exact ihr.2.2.2.2.2.1 m' hm' (by rw [hfee m']; exact hsome) u hu
    · have h1 := ihr.2.2.2.2.2.2.1
      have h2 := hstep.2.2.2.2.2.2.1
      have hcnt : rest.countP (fun per => (fee_for (genMonth units res acc m).1 res per).isSome)
          = rest.countP (fun per => (fee_for acc.1 res per).isSome) :=
        List.countP_congr (fun per _ => by rw [hfee per])
      rw [hcnt] at h1
      rw [List.countP_cons, h1, h2]
      by_cases hm : (fee_for acc.1 res m).isSome = true
      · rw [if_pos hm, if_pos hm]
        ring
      · rw [if_neg hm, if_neg hm]
        ring
    · have h1 := ihr.2.2.2.2.2.2.2.1
      have h2 := hstep.2.2.2.2.2.2.2.1
      have hfil : rest.filter (fun per => (fee_for (genMonth units res acc m).1 res per).isNone)
          = rest.filter (fun per => (fee_for acc.1 res per).isNone) :=
        List.filter_congr (fun per _ => by rw [hfee per])
      rw [hfil] at h1
      rw [h1, h2, List.filter_cons]
      cases hq : fee_for acc.1 res m with
      | none => simp [hq] at h2 ⊢
      | some v => simp [hq] at h2 ⊢
    · intro c hc
      rcases ihr.2.2.2.2.2.2.2.2 c hc with ⟨c0, hc0, he⟩ | h
      · rcases hstep.2.2.2.2.2.2.2.2 c0 hc0 with ⟨c1, hc1, he1⟩ | ⟨u, hu, he1⟩
        · exact Or.inl ⟨c1, hc1, he1.trans he⟩
        · exact Or.inr ⟨u, hu, he.symm.trans he1⟩
      · exact Or.inr h

theorem unitsFold_noop (res period : Nat) (fee : Int) (units : List Unit)
    (acc : State × Nat × Nat)
    (hall : ∀ u ∈ units, hasChargeRow acc.1 res u.id period = true) :
    units.foldl (fun a u => createChargeAndApply res period fee u.id a) acc =
      (acc.1, acc.2.1, acc.2.2 + units.length) := by
  induction units generalizing acc with
  | nil => simp
  | cons u t ih =>
    rw [List.foldl_cons]
    have hu := hall u (List.mem_cons_self _ _)
    have hstep : createChargeAndApply res period fee u.id acc =
        (acc.1, acc.2.1, acc.2.2 + 1) := by
      unfold createChargeAndApply
      dsimp only
      unfold hasChargeRow at hu
      rw [Option.isSome_iff_exists] at hu
      obtain ⟨c0, hc0⟩ := hu
      rw [hc0]
    rw [hstep,
      ih (acc.1, acc.2.1, acc.2.2 + 1) (fun v hv => hall v (List.mem_cons_of_mem _ hv))]
    have harith : acc.2.2 + 1 + t.length = acc.2.2 + (u :: t).length := by
      simp only [List.length_cons]
      omega
    rw [harith]

theorem genMonth_noop (units : List Unit) (res : Nat)
    (acc : State × Nat × Nat × List Nat) (period : Nat)
    (hall : (fee_for acc.1 res period).isSome = true → ∀ u ∈ units,
      hasChargeRow acc.1 res u.id period = true) :
    genMonth units res acc period =
      (acc.1, acc.2.1,
       acc.2.2.1 + (if (fee_for acc.1 res period).isSome then units.length else 0),
       if (fee_for acc.1 res period).isSome then acc.2.2.2
       else acc.2.2.2 ++ [period]) := by
  unfold genMonth
  cases hq : fee_for acc.1 res period with
  | none => simp
  | some fee =>
    dsimp only
    rw [unitsFold_noop res period fee units (acc.1, acc.2.1, acc.2.2.1)
      (fun u hu => hall (by rw [hq]; rfl) u hu)]
    simp

theorem genMonths_noop (units : List Unit) (res : Nat) (ms : List Nat)
    (acc : State × Nat × Nat × List Nat)
    (hall : ∀ m ∈ ms, (fee_for acc.1 res m).isSome = true → ∀ u ∈ units,
      hasChargeRow acc.1 res u.id m = true) :
    ms.foldl (genMonth units res) acc =
      (acc.1, acc.2.1,
       acc.2.2.1 + (ms.countP (fun m => (fee_for acc.1 res m).isSome)) * units.length,
       acc.2.2.2 ++ ms.filter (fun m => (fee_for acc.1 res m).isNone)) := by
  induction ms generalizing acc with
  | nil => simp
  | cons m rest ih =>
    rw [List.foldl_cons]
    cases hq : fee_for acc.1 res m with
    | none =>
      have hstep : genMonth units res acc m =
          (acc.1, acc.2.1, acc.2.2.1, acc.2.2.2 ++ [m]) := by
        unfold genMonth
        rw [hq]
      rw [hstep, ih (acc.1, acc.2.1, acc.2.2.1, acc.2.2.2 ++ [m])
        (fun m' hm' => hall m' (List.mem_cons_of_mem _ hm'))]
      simp [List.countP_cons, List.filter_cons, hq]
    | some fee =>
      have hstep : genMonth units res acc m =
          (acc.1, acc.2.1, acc.2.2.1 + units.length, acc.2.2.2) := by
        unfold genMonth
        rw [hq]
        dsimp only
        rw [unitsFold_noop res m fee units (acc.1, acc.2.1, acc.2.2.1)
          (fun u hu => hall m (List.mem_cons_self _ _) (by rw [hq]; rfl) u hu)]
      rw [hstep, ih (acc.1, acc.2.1, acc.2.2.1 + units.length, acc.2.2.2)
        (fun m' hm' => hall m' (List.mem_cons_of_mem _ hm'))]
      simp only [Prod.mk.injEq, List.countP_cons, List.filter_cons, hq,
        Option.isSome_some, if_true, true_and]
      constructor
      · rw [Nat.add_mul]
        omega
      · simp

/-- Claim C8: charge generation is idempotent — a second run over the same
residential and month range creates zero charges, leaves the store unchanged,
and counts every `(unit, period)` pair of the fee-resolved months as
already-existing; months without a resolvable fee are reported in the
missing-fee list (identically on both runs) and skipped without aborting the
rest of the range. -/
theorem C8_idempotent_generation (s : State) (res a b : Nat)
    (hne : s.units.filter (fun u => u.residential == res) ≠ []) :
    (generate_charges (generate_charges s res a b).1 res a b).2.1 = 0 ∧
    (generate_charges (generate_charges s res a b).1 res a b).1 =
      (generate_charges s res a b).1 ∧
    (generate_charges (generate_charges s res a b).1 res a b).2.2.1 =
      ((iterMonthStarts a b).countP (fun m => (fee_for s res m).isSome)) *
        (s.units.filter (fun u => u.residential == res)).length ∧
    (generate_charges (generate_charges s res a b).1 res a b).2.2.2 =
      (iterMonthStarts a b).filter (fun m => (fee_for s res m).isNone) ∧
    (generate_charges s res a b).2.2.2 =
      (iterMonthStarts a b).filter (fun m => (fee_for s res m).isNone) := by
  have hU : (s.units.filter (fun u => u.residential == res)).isEmpty = false := by
    rcases hq : s.units.filter (fun u => u.residential == res) with _ | ⟨u, t⟩
    · exact absurd hq hne
    · rw [hq]
      rfl
  have hg1 : generate_charges s res a b =
      (iterMonthStarts a b).foldl
        (genMonth (s.units.filter (fun u => u.residential == res)) res)
        (s, 0, 0, []) := by
    unfold generate_charges
    dsimp only
    rw [hU]
    rfl
  have hspec := genMonths_spec (s.units.filter (fun u => u.residential == res)) res
    (iterMonthStarts a b) (s, 0, 0, [])
  rw [hg1]
  have hfee1 : ∀ m, fee_for ((iterMonthStarts a b).foldl
      (genMonth (s.units.filter (fun u => u.residential == res)) res)
      (s, 0, 0, [])).1 res m = fee_for s res m :=
    fun m => fee_for_congr hspec.2.1 res m
  have hg2 : generate_charges ((iterMonthStarts a b).foldl
      (genMonth (s.units.filter (fun u => u.residential == res)) res)
      (s, 0, 0, [])).1 res a b =
      (iterMonthStarts a b).foldl
        (genMonth (s.units.filter (fun u => u.residential == res)) res)
        (((iterMonthStarts a b).foldl
          (genMonth (s.units.filter (fun u => u.residential == res)) res)
          (s, 0, 0, [])).1, 0, 0, []) := by
    unfold generate_charges
    dsimp only
    rw [hspec.1, hU]
    rfl
  rw [hg2]
  have hall : ∀ m ∈ iterMonthStarts a b,
      (fee_for ((iterMonthStarts a b).foldl
        (genMonth (s.units.filter (fun u => u.residential == res)) res)
        (s, 0, 0, [])).1 res m).isSome = true →
      ∀ u ∈ s.units.filter (fun u => u.residential == res),
        hasChargeRow ((iterMonthStarts a b).foldl
          (genMonth (s.units.filter (fun u => u.residential == res)) res)
          (s, 0, 0, [])).1 res u.id m = true := by
    intro m hm hsome u hu
    rw [hfee1 m] at hsome
    exact hspec.2.2.2.2.2.1 m hm hsome u hu
  rw [genMonths_noop (s.units.filter (fun u => u.residential == res)) res
    (iterMonthStarts a b)
    (((iterMonthStarts a b).foldl
      (genMonth (s.units.filter (fun u => u.residential == res)) res)
      (s, 0, 0, [])).1, 0, 0, []) hall]
  have hcnt : (iterMonthStarts a b).countP (fun m =>
      (fee_for ((iterMonthStarts a b).foldl
        (genMonth (s.units.filter (fun u => u.residential == res)) res)
        (s, 0, 0, [])).1 res m).isSome) =
      (iterMonthStarts a b).countP (fun m => (fee_for s res m).isSome) :=
    List.countP_congr (fun m _ => by rw [hfee1 m])
  have hfil : (iterMonthStarts a b).filter (fun m =>
      (fee_for ((iterMonthStarts a b).foldl
        (genMonth (s.units.filter (fun u => u.residential == res)) res)
        (s, 0, 0, [])).1 res m).isNone) =
      (iterMonthStarts a b).filter (fun m => (fee_for s res m).isNone) :=
    List.filter_congr (fun m _ => by rw [hfee1 m])
  refine ⟨rfl, rfl, ?_, ?_, ?_⟩
  · dsimp only
    rw [hcnt]
    omega
  · dsimp only
    rw [hfil]
    simp
  · have := hspec.2.2.2.2.2.2.2.1
    simpa using this

/-- Counterexample for C5 as stated: in the example residential every unit is
inactive, yet generation over month 1 creates a charge for unit 1 — the
source's unit queryset does not filter on `is_active`, so inactive units do
receive charges. -/
theorem C5_counterexample_inactive_unit_charged :
    (∀ u ∈ exGenState.units, u.is_active = false) ∧
    ∃ c ∈ (generate_charges exGenState 0 1 1).1.charges,
      c.unit = 1 ∧ c.period = 1 := by
  decide

/-- Claim C5 (amended): charge generation creates a charge row for every unit
of the community — active or not — for each month of the range with a
resolvable fee, and creates rows only for units of the community (a unit with
no pre-existing charge that belongs to another community never receives one). -/
theorem C5_amended_generation (s : State) (res a b : Nat) (u : Unit) (m : Nat)
    (f : Int) (hu : u ∈ s.units) (hres : u.residential = res)
    (hm : m ∈ iterMonthStarts a b) (hf : fee_for s res m = some f) :
    (∃ c ∈ (generate_charges s res a b).1.charges,
      c.residential = res ∧ c.unit = u.id ∧ c.period = m) ∧
    (∀ c ∈ (generate_charges s res a b).1.charges,
      (∃ c0 ∈ s.charges, c0.unit = c.unit) ∨
      ∃ v ∈ s.units, v.residential = res ∧ c.unit = v.id) := by
  have humem : u ∈ s.units.filter (fun u => u.residential == res) :=
    List.mem_filter.mpr ⟨hu, by simp [hres]⟩
  have hU : (s.units.filter (fun u => u.residential == res)).isEmpty = false := by
    rcases hq : s.units.filter (fun u => u.residential == res) with _ | ⟨v, t⟩
    · rw [hq] at humem
      cases humem
    · rw [hq]
      rfl
  have hg1 : generate_charges s res a b =
      (iterMonthStarts a b).foldl
        (genMonth (s.units.filter (fun u => u.residential == res)) res)
        (s, 0, 0, []) := by
    unfold generate_charges
    dsimp only
    rw [hU]
    rfl
  have hspec := genMonths_spec (s.units.filter (fun u => u.residential == res)) res
    (iterMonthStarts a b) (s, 0, 0, [])
  rw [hg1]
  constructor
  · have hrow := hspec.2.2.2.2.2.1 m hm (by rw [show ((s, 0, 0, []) :
        State × Nat × Nat × List Nat).1 = s from rfl, hf]; rfl) u humem
    unfold hasChargeRow at hrow
    rw [List.find?_isSome] at hrow
    obtain ⟨c, hc, hp⟩ := hrow
    simp only [Bool.and_eq_true, beq_iff_eq] at hp
    exact ⟨c, hc, hp.1.1, hp.1.2, hp.2⟩
  · intro c hc
    rcases hspec.2.2.2.2.2.2.2.2 c hc with h | ⟨v, hv, he⟩
    · exact Or.inl h
    · have := List.mem_filter.mp hv
      refine Or.inr ⟨v, this.1, ?_, he⟩
      simpa using this.2

/-- Witness for C5 (amended) at the example state: the inactive unit 1 gets a
charge row for month 1, and every charge row created belongs to a unit of
residential 0. -/
theorem C5_amended_generation_witness :
    ∃ c ∈ (generate_charges exGenState 0 1 1).1.charges,
      c.residential = 0 ∧ c.unit = 1 ∧ c.period = 1 :=
  (C5_amended_generation exGenState 0 1 1 ⟨1, 0, false⟩ 1 100
    (by decide) rfl (by decide) (by decide)).1

/-- Witness for C8: generating months 0–2 twice for the example residential
(fee defined only from month 1): the second run creates nothing, changes
nothing, reports both fee months' unit pairs as existing, and both runs record
month 0 as missing-fee. -/
theorem C8_idempotent_generation_witness :
    (generate_charges (generate_charges exGenState 0 0 2).1 0 0 2).2.1 = 0 ∧
    (generate_charges (generate_charges exGenState 0 0 2).1 0 0 2).1 =
      (generate_charges exGenState 0 0 2).1 ∧
    (generate_charges (generate_charges exGenState 0 0 2).1 0 0 2).2.2.1 =
      ((iterMonthStarts 0 2).countP (fun m => (fee_for exGenState 0 m).isSome)) *
        (exGenState.units.filter (fun u => u.residential == 0)).length ∧
    (generate_charges (generate_charges exGenState 0 0 2).1 0 0 2).2.2.2 =
      (iterMonthStarts 0 2).filter (fun m => (fee_for exGenState 0 m).isNone) ∧
    (generate_charges exGenState 0 0 2).2.2.2 =
      (iterMonthStarts 0 2).filter (fun m => (fee_for exGenState 0 m).isNone) :=
  C8_idempotent_generation exGenState 0 0 2 (by decide)

/-- Witness for C10 on the FIFO example state (charge 7 of $30, $50 of credit
available): the applied total is bounded by the entry balance, the allocated
total grows by exactly the applied total, and stays below the charge amount. -/
theorem C10_allocation_bounds_witness :
    (apply_available_credit_to_charge exC2State 7).2 ≤
      chargeBalance exC2State ⟨7, 9, 5, 0, 30, ChargeStatus.pending⟩ ∧
    chargeAllocated (apply_available_credit_to_charge exC2State 7).1 7 =
      chargeAllocated exC2State 7 + (apply_available_credit_to_charge exC2State 7).2 ∧
    chargeAllocated (apply_available_credit_to_charge exC2State 7).1 7 ≤ 30 := by
  have h := C10_allocation_bounds exC2State 7
    ⟨7, 9, 5, 0, 30, ChargeStatus.pending⟩ rfl (by decide)
  exact ⟨h.2.1, h.2.2.1, h.2.2.2 (by decide)⟩

theorem find?_map_pres {α : Type} (f : α → α) (p : α → Bool)
    (hf : ∀ x, p (f x) = p x) (l : List α) :
    (l.map f).find? p = (l.find? p).map f := by
  induction l with
  | nil => rfl
  | cons a t ih =>
    by_cases ha : p a = true
    · rw [List.map_cons, List.find?_cons_of_pos _ (by rw [hf]; exact ha),
        List.find?_cons_of_pos _ ha]
      rfl
    · rw [List.map_cons, List.find?_cons_of_neg _ (by rw [hf a]; exact ha),
        List.find?_cons_of_neg _ ha, ih]

theorem payment_mem_id_unique {l : List PaymentSubmission}
    (hnd : (l.map (·.id)).Nodup) {p q : PaymentSubmission}
    (hp : p ∈ l) (hq : q ∈ l) (hid : p.id = q.id) : p = q := by
  have h1 := find_of_mem_nodup hnd hp
  have h2 := find_of_mem_nodup hnd hq
  rw [hid] at h1
  rw [h1] at h2
  exact Option.some.inj h2

theorem paymentAllocated_append (s : State) (extra : List PaymentAllocation)
    (pid : Nat) :
    paymentAllocated { s with allocations := s.allocations ++ extra } pid =
      paymentAllocated s pid +
        sumApplied (extra.filter (fun a => a.payment == pid)) := by
  unfold paymentAllocated
  rw [show ({ s with allocations := s.allocations ++ extra } : State).allocations
    = s.allocations ++ extra from rfl, List.filter_append, sumApplied_append]

theorem findPayment_congr {s s' : State} (h : s'.payments = s.payments)
    (pid : Nat) : findPayment s' pid = findPayment s pid := by
  unfold findPayment
  rw [h]

theorem findCharge_congr {s s' : State} (h : s'.charges = s.charges)
    (cid : Nat) : findCharge s' cid = findCharge s cid := by
  unfold findCharge
  rw [h]

theorem findCharge_shape {s s' : State} (h : ChargesShape s.charges s'.charges)
    (cid : Nat) :
    ∃ g : MonthlyCharge → MonthlyCharge,
      findCharge s' cid = (findCharge s cid).map g ∧
      ∀ x, (g x).unit = x.unit := by
  obtain ⟨f, hf, hfp⟩ := h
  refine ⟨f, ?_, fun x => (hfp x).2.1⟩
  unfold findCharge
  rw [hf]
  exact find?_map_pres f (fun c => c.id == cid) (fun x => by simp [(hfp x).1]) _

theorem payInv_step {s s' : State} (hinv : PayInv s)
    (hallocs : s'.allocations = s.allocations)
    (hnext : s.nextPaymentId ≤ s'.nextPaymentId)
    (hpay : ∃ f, s'.payments = s.payments.map f ∧
      ∀ x, (f x).id = x.id ∧ (f x).unit = x.unit ∧ (f x).amount = x.amount)
    (hch : ChargesShape s.charges s'.charges) :
    PayInv s' := by
  obtain ⟨hnd, hbound, href⟩ := hinv
  obtain ⟨f, hf, hfp⟩ := hpay
  have hids : s'.payments.map (·.id) = s.payments.map (·.id) := by
    rw [hf, List.map_map]
    exact List.map_congr_left (fun x _ => (hfp x).1)
  have hfind : ∀ pid, findPayment s' pid = (findPayment s pid).map f := by
    intro pid
    unfold findPayment
    rw [hf]
    exact find?_map_pres f (fun q => q.id == pid) (fun x => by simp [(hfp x).1]) _
  refine ⟨by rw [hids]; exact hnd, ?_, ?_⟩
  · intro p' hp'
    rw [hf] at hp'
    obtain ⟨p, hp, rfl⟩ := List.mem_map.mp hp'
    have h1 := (hbound p hp).1
    have h2 := (hbound p hp).2
    refine ⟨?_, ?_⟩
    · rw [(hfp p).1, (hfp p).2.2, paymentAllocated_congr hallocs]
      exact h1
    · rw [(hfp p).1]
      omega
  · intro a ha
    rw [hallocs] at ha
    obtain ⟨p, hp, c, hc, hcu⟩ := href a ha
    obtain ⟨g, hg, hgu⟩ := findCharge_shape hch a.charge
    refine ⟨f p, ?_, g c, ?_, ?_⟩
    · rw [hfind, hp]
      rfl
    · rw [hg, hc]
      rfl
    · rw [hgu c, (hfp p).2.1]
      exact hcu

theorem payInv_recompute (s : State) (cid : Nat) (h : PayInv s) :
    PayInv (recompute_charge_status s cid) := by
  have hf := recompute_frame s cid
  refine payInv_step h hf.2.1 (le_of_eq hf.2.2.2.2.2.symm) ?_
    (recompute_chargesShape s cid)
  refine ⟨id, ?_, by simp⟩
  rw [List.map_id]
  exact hf.1

theorem payInv_recompute_fold (l : List PaymentAllocation) (t : State)
    (h : PayInv t) :
    PayInv (l.foldl (fun st a => recompute_charge_status st a.charge) t) := by
  induction l generalizing t with
  | nil => exact h
  | cons a rest ih =>
    rw [List.foldl_cons]
    exact ih _ (payInv_recompute t a.charge h)

theorem payInv_approve (s : State) (pid r n : Nat) (h : PayInv s) :
    PayInv (approve_payment s pid r n) := by
  unfold approve_payment
  cases hfp : findPayment s pid with
  | none => exact h
  | some p =>
    dsimp only
    by_cases hst : p.status ≠ PaymentStatus.submitted
    · rw [if_pos hst]
      exact h
    · rw [if_neg hst]
      apply payInv_recompute_fold
      refine payInv_step h rfl (le_refl _) ?_ (chargesShape_refl _)
      refine ⟨fun x => if x.id == pid then
        { x with status := PaymentStatus.approved,
                 reviewed_by := some r, reviewed_at := some n } else x, rfl, ?_⟩
      intro x
      by_cases hx : x.id == pid <;> simp [hx]

theorem payInv_reject (s : State) (pid r n : Nat) (notes : String)
    (h : PayInv s) : PayInv (reject_payment s pid r n notes) := by
  unfold reject_payment
  cases hfp : findPayment s pid with
  | none => exact h
  | some p =>
    dsimp only
    by_cases hst : p.status ≠ PaymentStatus.submitted
    · rw [if_pos hst]
      exact h
    · rw [if_neg hst]
      refine payInv_step h rfl (le_refl _) ?_ (chargesShape_refl _)
      refine ⟨fun x => if x.id == pid then
        { x with status := PaymentStatus.rejected,
                 reviewed_by := some r, reviewed_at := some n,
                 review_notes := if notes ≠ "" then notes else x.review_notes }
        else x, rfl, ?_⟩
      intro x
      by_cases hx : x.id == pid <;> simp [hx]

theorem payInv_void (s : State) (cid : Nat) (h : PayInv s) :
    PayInv (void_charge s cid) := by
  refine payInv_step h rfl (le_refl _) ⟨id, by rw [List.map_id]; rfl, by simp⟩ ?_
  refine ⟨fun x => if x.id == cid then { x with status := ChargeStatus.void }
    else x, rfl, ?_⟩
  intro x
  by_cases hx : x.id == cid <;> simp [hx]

theorem payInv_submit (s : State) (res uId : Nat) (amount : Int) (now : Nat)
    (h : PayInv s) : PayInv (submit_payment s res uId amount now) := by
  unfold submit_payment
  by_cases ha : amount < 0
  · rw [if_pos ha]
    exact h
  · rw [if_neg ha]
    obtain ⟨hnd, hbound, href⟩ := h
    have hfresh : ∀ a ∈ s.allocations, (a.payment == s.nextPaymentId) = false := by
      intro a ha'
      obtain ⟨p, hp, -⟩ := href a ha'
      have hpm := List.mem_of_find?_eq_some hp
      have hpid : p.id = a.payment := by simpa using List.find?_some hp
      have := (hbound p hpm).2
      simp only [beq_eq_false_iff_ne]
      omega
    refine ⟨?_, ?_, ?_⟩
    · rw [show ({ s with
          payments := s.payments ++
            [⟨s.nextPaymentId, res, uId, amount, PaymentStatus.submitted,
              none, none, "", now⟩],
          nextPaymentId := s.nextPaymentId + 1 } : State).payments
        = s.payments ++
          [⟨s.nextPaymentId, res, uId, amount, PaymentStatus.submitted,
            none, none, "", now⟩] from rfl, List.map_append]
      rw [List.nodup_append]
      refine ⟨hnd, by simp, ?_⟩
      intro x hx
      obtain ⟨p, hp, rfl⟩ := List.mem_map.mp hx
      have := (hbound p hp).2
      simp only [List.map_cons, List.map_nil, List.mem_singleton]
      omega
    · intro p' hp'
      rcases List.mem_append.mp hp' with hp' | hp'
      · have h1 := hbound p' hp'
        refine ⟨h1.1, ?_⟩
        show p'.id < s.nextPaymentId + 1
        omega
      · simp only [List.mem_singleton] at hp'
        subst hp'
        refine ⟨?_, ?_⟩
        on_goal 2 =>
          show s.nextPaymentId < s.nextPaymentId + 1
          omega
        show paymentAllocated _ s.nextPaymentId ≤ amount
        unfold paymentAllocated
        rw [show ({ s with
            payments := s.payments ++
              [⟨s.nextPaymentId, res, uId, amount, PaymentStatus.submitted,
                none, none, "", now⟩],
            nextPaymentId := s.nextPaymentId + 1 } : State).allocations
          = s.allocations from rfl]
        rw [List.filter_eq_nil_iff.mpr (fun a ha' => by simp [hfresh a ha'])]
        unfold sumApplied
        simp only [List.map_nil, List.sum_nil]
        omega
    · intro a ha'
      obtain ⟨p, hp, c, hc, hcu⟩ := href a ha'
      refine ⟨p, ?_, c, hc, hcu⟩
      unfold findPayment
      rw [show ({ s with
          payments := s.payments ++
            [⟨s.nextPaymentId, res, uId, amount, PaymentStatus.submitted,
              none, none, "", now⟩],
          nextPaymentId := s.nextPaymentId + 1 } : State).payments
        = s.payments ++
          [⟨s.nextPaymentId, res, uId, amount, PaymentStatus.submitted,
            none, none, "", now⟩] from rfl]
      have hp2 : List.find? (fun q => q.id == a.payment) s.payments = some p := hp
      rw [List.find?_append, hp2]
      rfl

theorem payInv_applyCredit (s : State) (cid : Nat) (h : PayInv s) :
    PayInv (apply_available_credit_to_charge s cid).1 := by
  obtain ⟨hnd, hbound, href⟩ := h
  cases hc : findCharge s cid with
  | none =>
    rw [applyCredit_eq_none hc]
    exact ⟨hnd, hbound, href⟩
  | some c =>
    by_cases hpv : c.status = ChargeStatus.paid ∨ c.status = ChargeStatus.void
    · rw [C6_paid_void_charge_noop s cid c hc hpv]
      exact ⟨hnd, hbound, href⟩
    · by_cases hbal : chargeBalance s c ≤ 0
      · rw [applyCredit_eq_zerobal hc hpv hbal]
        exact ⟨hnd, hbound, href⟩
      · rw [applyCredit_eq_main hc hpv hbal]
        apply payInv_recompute
        refine ⟨hnd, ?_, ?_⟩
        · intro p hp
          refine ⟨?_, (hbound p hp).2⟩
          rw [paymentAllocated_append]
          by_cases hpm : p.id ∈ (creditPairs s c).map Prod.fst
          · obtain ⟨pr, hpr, hfst⟩ := List.mem_map.mp hpm
            obtain ⟨q, hq, hqe⟩ := List.mem_map.mp hpr
            have hqid : q.id = p.id := by
              rw [← hfst, ← hqe]
            have hqp : q = p :=
              payment_mem_id_unique hnd (eligible_mem s c q hq).1 hp hqid
            have hmem2 : (p.id, p.amount - paymentAllocated s p.id) ∈
                creditPairs s c := by
              rw [← hqp]
              exact List.mem_map_of_mem _ hq
            have hsum := allocLoop_payment_sum_le cid (chargeBalance s c)
              (creditPairs s c) p.id (p.amount - paymentAllocated s p.id)
              (creditPairs_fst_nodup s c hnd) hmem2 (creditPairs_pos s c)
            omega
          · rw [allocLoop_payment_sum_zero cid (chargeBalance s c)
              (creditPairs s c) p.id hpm]
            have := (hbound p hp).1
            omega
        · intro a ha
          rw [show ({ s with allocations := s.allocations ++
              (allocLoop cid (chargeBalance s c) (creditPairs s c)).1 } :
              State).allocations = s.allocations ++
              (allocLoop cid (chargeBalance s c) (creditPairs s c)).1 from rfl]
            at ha
          rcases List.mem_append.mp ha with ha | ha
          · exact href a ha
          · obtain ⟨hch, rem, hmem, -⟩ := allocLoop_mem cid (chargeBalance s c)
              (creditPairs s c) a ha
            obtain ⟨q, hq, hqe⟩ := List.mem_map.mp hmem
            have hqid : q.id = a.payment := congrArg Prod.fst hqe
            have hqm := eligible_mem s c q hq
            refine ⟨q, ?_, c, ?_, hqm.2.1.symm⟩
            · show findPayment s a.payment = some q
              rw [← hqid]
              exact find_of_mem_nodup hnd hqm.1
            · show findCharge s a.charge = some c
              rw [hch]
              exact hc

theorem payInv_create (res period : Nat) (fee : Int) (uId : Nat)
    (acc : State × Nat × Nat) (h : PayInv acc.1) :
    PayInv (createChargeAndApply res period fee uId acc).1 := by
  unfold createChargeAndApply
  dsimp only
  cases hfind : acc.1.charges.find?
      (fun c => c.residential == res && c.unit == uId && c.period == period) with
  | some c0 => exact h
  | none =>
    apply payInv_applyCredit
    obtain ⟨hnd, hbound, href⟩ := h
    refine ⟨hnd, fun p hp => hbound p hp, ?_⟩
    intro a ha
    obtain ⟨p, hp, c, hc, hcu⟩ := href a ha
    refine ⟨p, hp, c, ?_, hcu⟩
    show findCharge _ a.charge = some c
    unfold findCharge
    have hc2 : List.find? (fun x => x.id == a.charge) acc.1.charges = some c := hc
    rw [show ({ acc.1 with
        charges := acc.1.charges ++
          [⟨acc.1.nextChargeId, res, uId, period, fee, ChargeStatus.pending⟩],
        nextChargeId := acc.1.nextChargeId + 1 } : State).charges
      = acc.1.charges ++
        [⟨acc.1.nextChargeId, res, uId, period, fee, ChargeStatus.pending⟩] from rfl]
    rw [List.find?_append, hc2]
    rfl

theorem payInv_unitsFold (res period : Nat) (fee : Int) (units : List Unit)
    (acc : State × Nat × Nat) (h : PayInv acc.1) :
    PayInv ((units.foldl
      (fun a u => createChargeAndApply res period fee u.id a) acc)).1 := by
  induction units generalizing acc with
  | nil => exact h
  | cons u t ih =>
    rw [List.foldl_cons]
    exact ih _ (payInv_create res period fee u.id acc h)

theorem payInv_genMonth (units : List Unit) (res : Nat)
    (acc : State × Nat × Nat × List Nat) (period : Nat) (h : PayInv acc.1) :
    PayInv (genMonth units res acc period).1 := by
  unfold genMonth
  cases hfee : fee_for acc.1 res period with
  | none => exact h
  | some fee =>
    exact payInv_unitsFold res period fee units (acc.1, acc.2.1, acc.2.2.1) h

theorem payInv_genMonths (units : List Unit) (res : Nat) (ms : List Nat)
    (acc : State × Nat × Nat × List Nat) (h : PayInv acc.1) :
    PayInv ((ms.foldl (genMonth units res) acc)).1 := by
  induction ms generalizing acc with
  | nil => exact h
  | cons m rest ih =>
    rw [List.foldl_cons]
    exact ih _ (payInv_genMonth units res acc m h)

theorem payInv_generate (s : State) (res a b : Nat) (h : PayInv s) :
    PayInv (generate_charges s res a b).1 := by
  unfold generate_charges
  dsimp only
  by_cases hne : (s.units.filter (fun u => u.residential == res)).isEmpty = true
  · rw [if_pos hne]
    exact h
  · rw [if_neg hne]
    exact payInv_genMonths _ res (iterMonthStarts a b) (s, 0, 0, []) h

theorem payInv_applyOp (s : State) (op : Op) (h : PayInv s) :
    PayInv (applyOp s op) := by
  cases op with
  | addUnit i r act =>
    obtain ⟨hnd, hbound, href⟩ := h
    exact ⟨hnd, hbound, href⟩
  | addFee r amt e =>
    obtain ⟨hnd, hbound, href⟩ := h
    exact ⟨hnd, hbound, href⟩
  | submit r u amt n => exact payInv_submit s r u amt n h
  | approve p r n => exact payInv_approve s p r n h
  | reject p r n notes => exact payInv_reject s p r n notes h
  | applyCredit c => exact payInv_applyCredit s c h
  | recompute c => exact payInv_recompute s c h
  | generate r a b => exact payInv_generate s r a b h
  | voidCharge c => exact payInv_void s c h

theorem payInv_runOps (ops : List Op) : PayInv (runOps ops) := by
  unfold runOps
  have hgen : ∀ t, PayInv t → PayInv (ops.foldl applyOp t) := by
    induction ops with
    | nil => exact fun t ht => ht
    | cons op rest ih =>
      intro t ht
      rw [List.foldl_cons]
      exact ih _ (payInv_applyOp t op ht)
  refine hgen initState ⟨?_, ?_, ?_⟩
  · show (List.map (·.id) ([] : List PaymentSubmission)).Nodup
    simp
  · intro p hp
    cases hp
  · intro a ha
    cases ha

theorem allocApprovedToUnit_head (p : PaymentSubmission)
    (rest : List PaymentSubmission) (u : Nat) (a : PaymentAllocation) :
    allocApprovedToUnit (p :: rest) u a =
      (if (a.payment == p.id) = true
       then (p.unit == u && p.status == PaymentStatus.approved)
       else allocApprovedToUnit rest u a) := by
  by_cases hap : (a.payment == p.id) = true
  · rw [if_pos hap]
    unfold allocApprovedToUnit
    rw [List.find?_cons_of_pos _ (by simp only [beq_iff_eq] at hap ⊢; omega)]
  · rw [if_neg hap]
    unfold allocApprovedToUnit
    rw [List.find?_cons_of_neg _ (by simp only [beq_iff_eq] at hap ⊢; omega)]

theorem sumApplied_filter_head (p : PaymentSubmission)
    (rest : List PaymentSubmission) (u : Nat) (allocs : List PaymentAllocation) :
    sumApplied (allocs.filter (allocApprovedToUnit (p :: rest) u)) =
      (if (p.unit == u && p.status == PaymentStatus.approved) = true
       then sumApplied (allocs.filter (fun a => a.payment == p.id)) else 0) +
      sumApplied ((allocs.filter (fun a => !(a.payment == p.id))).filter
        (allocApprovedToUnit rest u)) := by
  induction allocs with
  | nil => simp [sumApplied]
  | cons a t ih =>
    cases hap : (a.payment == p.id) <;>
      cases hra : allocApprovedToUnit rest u a <;>
        cases hsel : (p.unit == u && p.status == PaymentStatus.approved) <;>
          simp [List.filter_cons, allocApprovedToUnit_head, hap, hra, hsel,
            sumApplied_cons, ih] <;>
          ring

theorem grouped_bound (pays : List PaymentSubmission) (u : Nat)
    (allocs : List PaymentAllocation)
    (hnd : (pays.map (·.id)).Nodup)
    (hbound : ∀ p ∈ pays,
      sumApplied (allocs.filter (fun a => a.payment == p.id)) ≤ p.amount) :
    sumApplied (allocs.filter (allocApprovedToUnit pays u)) ≤
      ((pays.filter
        (fun p => p.unit == u && p.status == PaymentStatus.approved)).map
        (·.amount)).sum := by
  induction pays generalizing allocs with
  | nil =>
    rw [List.filter_eq_nil_iff.mpr (fun a _ => by simp [allocApprovedToUnit])]
    simp [sumApplied]
  | cons p rest ih =>
    rw [List.map_cons, List.nodup_cons] at hnd
    rw [sumApplied_filter_head p rest u allocs, List.filter_cons]
    have hrest : ∀ q ∈ rest,
        sumApplied ((allocs.filter (fun a => !(a.payment == p.id))).filter
          (fun a => a.payment == q.id)) ≤ q.amount := by
      intro q hq
      have hne : q.id ≠ p.id := by
        intro he
        exact hnd.1 (he ▸ List.mem_map_of_mem (·.id) hq)
      have heq : (allocs.filter (fun a => !(a.payment == p.id))).filter
          (fun a => a.payment == q.id) =
          allocs.filter (fun a => a.payment == q.id) := by
        rw [List.filter_filter]
        apply List.filter_congr
        intro a _
        by_cases haq : (a.payment == q.id) = true
        · have : (a.payment == p.id) = false := by
            simp only [beq_iff_eq] at haq
            simp only [beq_eq_false_iff_ne]
            omega
          simp [haq, this]
        · have : (a.payment == q.id) = false := by
            revert haq
            cases (a.payment == q.id) <;> simp
          simp [this]
      rw [heq]
      exact hbound q (List.mem_cons_of_mem _ hq)
    have hih := ih (allocs.filter (fun a => !(a.payment == p.id))) hnd.2 hrest
    by_cases hsel : (p.unit == u && p.status == PaymentStatus.approved) = true
    · rw [if_pos hsel, if_pos hsel, List.map_cons, List.sum_cons]
      have h1 := hbound p (List.mem_cons_self _ _)
      omega
    · rw [if_neg hsel, if_neg hsel]
      omega

theorem payInv_bound (s : State) (u : Nat) (h : PayInv s) :
    approvedAppliedToUnit s u ≤ approvedPaid s u := by
  obtain ⟨hnd, hbound, href⟩ := h
  unfold approvedAppliedToUnit approvedPaid
  have hcong : s.allocations.filter (fun a =>
      (match findCharge s a.charge with
       | some c => c.unit == u
       | none => false) && paymentIsApproved s a.payment) =
      s.allocations.filter (allocApprovedToUnit s.payments u) := by
    apply List.filter_congr
    intro a ha
    obtain ⟨p, hp, c, hc, hcu⟩ := href a ha
    have hp2 : s.payments.find? (fun q => q.id == a.payment) = some p := hp
    unfold allocApprovedToUnit paymentIsApproved findPayment
    rw [hc, hp2]
    dsimp only
    rw [hcu]
  rw [hcong]
  exact grouped_bound s.payments u s.allocations hnd (fun p hp => (hbound p hp).1)

/-- Claim C3: credit conservation.  Starting from the empty store, after any
sequence of the ledger's operations (payment submission, approval, rejection,
credit application, status recomputation, charge generation, VOID override,
unit and fee-schedule creation), for every unit the total of APPROVED payment
amounts is at least the total `amount_applied` over that unit's allocations
whose payment is APPROVED — the allocation engine never allocates more money
than was paid. -/
theorem C3_credit_conservation (ops : List Op) (u : Nat) :
    approvedAppliedToUnit (runOps ops) u ≤ approvedPaid (runOps ops) u :=
  payInv_bound (runOps ops) u (payInv_runOps ops)

end MiPortal
